import Mathlib

/-!
Verification development for the GenAI Table Processing repository.

The development shallowly embeds the three source files:
  - `utils/prompt_helper.py` (placeholder engine),
  - `services/processing.py` (model client adapter, cost estimator),
  - `app.py` (`process_dataframe`, the step pipeline).

Python values flowing through the pipeline (JSON replies, spreadsheet
cells) are modelled by the inductive type `JValue`; machine floats in the
pricing arithmetic are modelled by exact rationals; the remote OpenAI
chat endpoint is modelled as an oracle parameter mapping the index of the
call and the request payload to either a reply or a transport error.
Python exceptions that `process_dataframe` does not catch (IndexError
from `iloc`, AttributeError from `.items()`, transport errors from the
client) are modelled with `Except`.
-/

/-- Values of the dynamic (Python/JSON) world: JSON scalars, arrays and
objects, plus the `nan` cell value pandas inserts when a new column is
created, and the `inf` constants Python's `json.loads` accepts. Objects
are insertion-ordered key/value lists with unique keys, mirroring Python
dicts. -/
inductive JValue where
  | null
  | bool (b : Bool)
  | num (q : ℚ)
  | str (s : String)
  | nan
  | inf
  | neginf
  | arr (elems : List JValue)
  | obj (fields : List (String × JValue))

/-- Python dict assignment `d[k] = v`: update the key in place if present
(keeping its position), otherwise append. Used both for row dictionaries
(`row_data[col_name] = value` in `app.py`) and for building the dict in
JSON object parsing. -/
def rowSet : List (String × JValue) → String → JValue → List (String × JValue)
  | [], k, v => [(k, v)]
  | (k', v') :: r, k, v => if k' = k then (k, v) :: r else (k', v') :: rowSet r k v

/-- Python dict lookup `d.get(k)` (keys are unique, so first match). -/
def rowGet : List (String × JValue) → String → Option JValue
  | [], _ => none
  | (k', v') :: r, k => if k' = k then some v' else rowGet r k

/-- Row dictionaries as produced by `result_df.iloc[i].to_dict()`. -/
abbrev Row := List (String × JValue)

/-- Separator-joined concatenation, as Python's `sep.join(...)`. -/
def joinSep (sep : String) : List String → String
  | [] => ""
  | [x] => x
  | x :: xs => x ++ sep ++ joinSep sep xs

/-- Textual form `str(value)` of a Python value, fuelled structurally so
that it evaluates by `rfl`. Scalars are exact; `str()` of non-integer
floats and of nested containers is approximated (single quotes around
strings inside containers, `a/b` for non-integral rationals); no claim in
this development depends on those corner renderings. -/
def pyQuoteWrap : JValue → String → String
  | .str _, s => "'" ++ s ++ "'"
  | _, s => s

/-- Fuel-structural worker for `str(value)`; `pyQuoteWrap` turns the
rendering of a container element into its `repr()` form. -/
def pyStrFuel : Nat → JValue → String
  | _, .null => "None"
  | _, .bool true => "True"
  | _, .bool false => "False"
  | _, .str s => s
  | _, .nan => "nan"
  | _, .inf => "inf"
  | _, .neginf => "-inf"
  | _, .num q => if q.den = 1 then toString q.num else toString q
  | 0, _ => ""
  | fuel+1, .arr xs => "[" ++ joinSep ", " (xs.map (fun v => pyQuoteWrap v (pyStrFuel fuel v))) ++ "]"
  | fuel+1, .obj kvs =>
      "\x7b" ++ joinSep ", "
        (kvs.map (fun p => "'" ++ p.1 ++ "': " ++ pyQuoteWrap p.2 (pyStrFuel fuel p.2))) ++ "\x7d"

/-- Structural size of a value, bounding its nesting depth. -/
def jDepth : JValue → Nat
  | .arr xs => 1 + jDepthList xs
  | .obj kvs => 1 + jDepthObj kvs
  | _ => 1
where
  jDepthList : List JValue → Nat
    | [] => 0
    | v :: r => jDepth v + jDepthList r + 1
  jDepthObj : List (String × JValue) → Nat
    | [] => 0
    | (_, v) :: r => jDepth v + jDepthObj r + 1

/-- Python `str(value)` on a pipeline value; `jDepth` bounds the nesting
depth, so the fuel never runs out. -/
def pyStr (v : JValue) : String := pyStrFuel (jDepth v) v

/-- Conversion applied before a value is stored in the dataframe:
`str(value) if not isinstance(value, str) else value` (app.py). -/
def strCell (v : JValue) : JValue :=
  match v with
  | .str s => .str s
  | v => .str (pyStr v)

/-- Dictionary `items()` view: succeeds only on an object, mirroring that
`result.response.items()` in `app.py` raises AttributeError when the
parsed JSON reply is not an object. -/
def itemsOf : JValue → Option (List (String × JValue))
  | .obj kvs => some kvs
  | _ => none

/-! ## Placeholder engine (`utils/prompt_helper.py`) -/

/-- Word characters of the regex class used by the pattern, restricted to
ASCII (the placeholders exercised by the application are ASCII). -/
def isWordChar (c : Char) : Bool := c.isAlphanum || c = '_'

/-- Fuelled scanner for `re.findall` with the placeholder pattern: find
every non-overlapping match of an opening brace, an at sign, one or more
word characters and a closing brace, left to right, returning the list of
captured names (duplicates kept). A failed match attempt advances the
scan position by one character, as the regex engine does. Fuel at least
`length + 1` makes the fuel irrelevant: every step consumes a character. -/
def scanAux : Nat → List Char → List (List Char)
  | 0, _ => []
  | _+1, [] => []
  | fuel+1, c :: rest =>
    if c = '{' ∧ rest.head? = some '@' then
      let afterAt := rest.tail
      let name := afterAt.takeWhile isWordChar
      let rest2 := afterAt.dropWhile isWordChar
      if name ≠ [] ∧ rest2.head? = some '}' then
        name :: scanAux fuel rest2.tail
      else
        scanAux fuel rest
    else
      scanAux fuel rest

/-- Character-level placeholder scan of a template. -/
def scanPlaceholders (s : List Char) : List (List Char) := scanAux (s.length + 1) s

/-- Embedding of `extract_placeholders(prompt)`. -/
def extract_placeholders (prompt : String) : List String :=
  (scanPlaceholders prompt.data).map (fun l => String.mk l)

/-- Fuelled form of Python's `str.replace(pat, repl)`: replace every
non-overlapping occurrence left to right, never rescanning the inserted
replacement. Fuel at least `length + 1` makes the fuel irrelevant. The
empty pattern (which never arises here: patterns are placeholder tokens)
is left unreplaced. -/
def replaceAllAux (pat repl : List Char) : Nat → List Char → List Char
  | 0, s => s
  | _+1, [] => []
  | fuel+1, c :: rest =>
    if pat ≠ [] ∧ pat.isPrefixOf (c :: rest) then
      repl ++ replaceAllAux pat repl fuel ((c :: rest).drop pat.length)
    else
      c :: replaceAllAux pat repl fuel rest

/-- Python's `s.replace(pat, repl)` for nonempty `pat`. -/
def replaceAll (pat repl s : List Char) : List Char :=
  replaceAllAux pat repl (s.length + 1) s

/-- Character form of the placeholder token for a name. -/
def phToken (name : List Char) : List Char := '{' :: '@' :: name ++ [ '}' ]

/-- String form `str(row_data.get(name, ''))` substituted for a
placeholder. -/
def valStr (row : Row) (name : List Char) : List Char :=
  (pyStr ((rowGet row (String.mk name)).getD (.str ""))).data

/-- Embedding of `replace_placeholders(prompt, row_data)`: collect all
matches first, then for each matched name in order globally replace its
token in the running result with the string form of the row value (empty
string when the name is absent). -/
def replace_placeholders (prompt : String) (row : Row) : String :=
  String.mk ((scanPlaceholders prompt.data).foldl
    (fun acc name => replaceAll (phToken name) (valStr row name) acc) prompt.data)

/-! ## JSON parsing (model of `json.loads` used in `process_item`) -/

/-- Whitespace skipped between JSON tokens (exactly the four characters
Python's strict decoder skips). -/
def isJsonWs (c : Char) : Bool := c = ' ' || c = '\t' || c = '\n' || c = '\r'

/-- Skip inter-token whitespace. -/
def skipWs (s : List Char) : List Char := s.dropWhile isJsonWs

/-- Value of one hexadecimal digit, if any. -/
def hexVal (c : Char) : Option Nat :=
  if '0' ≤ c ∧ c ≤ '9' then some (c.toNat - 48)
  else if 'a' ≤ c ∧ c ≤ 'f' then some (c.toNat - 87)
  else if 'A' ≤ c ∧ c ≤ 'F' then some (c.toNat - 70)
  else none

/-- Parse the body of a JSON string after the opening quote, returning
the decoded characters and the remainder after the closing quote. Raw
control characters are rejected (strict mode). A `\uXXXX` escape decodes
to the scalar with that code; codes that are not valid scalar values
(lone surrogates, which Python keeps and may pair) are approximated by
`Char.ofNat`'s default. -/
def pStr : Nat → List Char → Option (List Char × List Char)
  | 0, _ => none
  | _+1, [] => none
  | fuel+1, c :: rest =>
    if c = '"' then some ([], rest)
    else if c = '\\' then
      match rest with
      | [] => none
      | e :: rest2 =>
        if e = '"' then (pStr fuel rest2).map (fun p => ( '"' :: p.1, p.2))
        else if e = '\\' then (pStr fuel rest2).map (fun p => ( '\\' :: p.1, p.2))
        else if e = '/' then (pStr fuel rest2).map (fun p => ( '/' :: p.1, p.2))
        else if e = 'b' then (pStr fuel rest2).map (fun p => (Char.ofNat 8 :: p.1, p.2))
        else if e = 'f' then (pStr fuel rest2).map (fun p => (Char.ofNat 12 :: p.1, p.2))
        else if e = 'n' then (pStr fuel rest2).map (fun p => ( '\n' :: p.1, p.2))
        else if e = 'r' then (pStr fuel rest2).map (fun p => ( '\r' :: p.1, p.2))
        else if e = 't' then (pStr fuel rest2).map (fun p => ( '\t' :: p.1, p.2))
        else if e = 'u' then
          match rest2 with
          | h1 :: h2 :: h3 :: h4 :: rest3 =>
            match hexVal h1, hexVal h2, hexVal h3, hexVal h4 with
            | some a, some b, some c3, some d =>
              (pStr fuel rest3).map
                (fun p => (Char.ofNat (a * 4096 + b * 256 + c3 * 16 + d) :: p.1, p.2))
            | _, _, _, _ => none
          | _ => none
        else none
    else if c.toNat < 32 then none
    else (pStr fuel rest).map (fun p => (c :: p.1, p.2))

/-- Decimal value of a digit list. -/
def digitsVal (l : List Char) : Nat := l.foldl (fun a c => a * 10 + (c.toNat - 48)) 0

/-- Parse a JSON number (`-? int frac? exp?` with the strict leading-zero
rule), returning its exact rational value; integers and decimal floats
are not distinguished beyond the rational having denominator 1. -/
def pNum (s : List Char) : Option (ℚ × List Char) :=
  let neg : Bool := s.head? = some '-'
  let s1 := if neg then s.tail else s
  match s1.head? with
  | none => none
  | some c =>
    if ¬ c.isDigit then none
    else
      let intPart := s1.takeWhile Char.isDigit
      let s2 := s1.dropWhile Char.isDigit
      if intPart.length > 1 ∧ intPart.head? = some '0' then none
      else
        let hasFrac : Bool := s2.head? = some '.'
        let fracDigits := if hasFrac then s2.tail.takeWhile Char.isDigit else []
        let s3 := if hasFrac then s2.tail.dropWhile Char.isDigit else s2
        let hasExp : Bool := s3.head? = some 'e' || s3.head? = some 'E'
        let t := s3.tail
        let expNeg : Bool := hasExp && t.head? = some '-'
        let t2 := if hasExp && (t.head? = some '+' || t.head? = some '-') then t.tail else t
        let expDigits := if hasExp then t2.takeWhile Char.isDigit else []
        let s4 := if hasExp then t2.dropWhile Char.isDigit else s3
        if (hasFrac && fracDigits.isEmpty) || (hasExp && expDigits.isEmpty) then none
        else
          let mant : ℚ := (digitsVal intPart : ℚ) + (digitsVal fracDigits : ℚ) / 10 ^ fracDigits.length
          let mag : ℚ := if expNeg then mant / 10 ^ digitsVal expDigits else mant * 10 ^ digitsVal expDigits
          some (if neg then -mag else mag, s4)

/-- Parse a JSON value at the head of the input (whitespace already
skipped), returning it and the remainder. Objects become insertion-ordered
unique-key lists as Python dicts do (a duplicate key overwrites in
place); the non-standard constants `NaN`, `Infinity` and `-Infinity`
accepted by Python's default decoder are accepted too. Fuel decreases on
every nested call and `2 * length + 2` always suffices, since at most two
nested calls happen per consumed input character. -/
def pVal : Nat → List Char → Option (JValue × List Char)
  | 0, _ => none
  | fuel+1, s =>
    match s with
    | [] => none
    | c :: rest =>
      if c = '{' then
        match skipWs rest with
        | [] => none
        | c2 :: rest2 =>
          if c2 = '}' then some (.obj [], rest2)
          else pObjRest fuel [] (c2 :: rest2)
      else if c = '[' then
        match skipWs rest with
        | [] => none
        | c2 :: rest2 =>
          if c2 = ']' then some (.arr [], rest2)
          else pArrRest fuel [] (c2 :: rest2)
      else if c = '"' then
        (pStr fuel rest).map (fun p => (.str (String.mk p.1), p.2))
      else if "true".data.isPrefixOf s then some (.bool true, s.drop 4)
      else if "false".data.isPrefixOf s then some (.bool false, s.drop 5)
      else if "null".data.isPrefixOf s then some (.null, s.drop 4)
      else if "NaN".data.isPrefixOf s then some (.nan, s.drop 3)
      else if "Infinity".data.isPrefixOf s then some (.inf, s.drop 8)
      else if "-Infinity".data.isPrefixOf s then some (.neginf, s.drop 9)
      else (pNum s).map (fun p => (.num p.1, p.2))
where
  /-- Parse the members of an object from a position expecting a key. -/
  pObjRest : Nat → List (String × JValue) → List Char → Option (JValue × List Char)
  | 0, _, _ => none
  | fuel+1, acc, s =>
    match s with
    | [] => none
    | c :: rest =>
      if c = '"' then
        match pStr fuel rest with
        | none => none
        | some (key, s2) =>
          match skipWs s2 with
          | [] => none
          | c2 :: s3 =>
            if c2 = ':' then
              match pVal fuel (skipWs s3) with
              | none => none
              | some (v, s4) =>
                let acc2 := rowSet acc (String.mk key) v
                match skipWs s4 with
                | [] => none
                | c3 :: s5 =>
                  if c3 = ',' then pObjRest fuel acc2 (skipWs s5)
                  else if c3 = '}' then some (.obj acc2, s5)
                  else none
            else none
      else none
  /-- Parse the elements of an array from a position expecting a value. -/
  pArrRest : Nat → List JValue → List Char → Option (JValue × List Char)
  | 0, _, _ => none
  | fuel+1, acc, s =>
    match pVal fuel s with
    | none => none
    | some (v, s2) =>
      match skipWs s2 with
      | [] => none
      | c :: s3 =>
        if c = ',' then pArrRest fuel (acc ++ [v]) (skipWs s3)
        else if c = ']' then some (.arr (acc ++ [v]), s3)
        else none

/-- Embedding of `json.loads(content)`: `none` means the call raises
`JSONDecodeError` (leading/trailing whitespace allowed, trailing data
not). -/
def jsonParse (s : String) : Option JValue :=
  match pVal (2 * s.data.length + 2) (skipWs s.data) with
  | some (v, rest) => if skipWs rest = [] then some v else none
  | none => none

/-! ## Model client adapter (`services/processing.py`) -/

/-- Transport-level failure of the remote chat call (network, auth, rate
limit, timeout): the exception the OpenAI client raises, which
`process_item` does not catch. -/
structure CallErr where
  msg : String

/-- Payload of a chat-completion request as `process_item` builds it. -/
structure ChatRequest where
  model : String
  systemMessage : String
  userMessage : String
  temperature : ℚ
  maxTokens : Nat
  jsonFormat : Bool

/-- Raw outcome of a successful remote call: the reply text of the first
choice plus the usage counters and model identifier reported by the
service. -/
structure RawReply where
  content : String
  prompt_tokens : Nat
  completion_tokens : Nat
  total_tokens : Nat
  model : String

/-- The remote endpoint, modelled as a function of the index of the call
within the run (successive calls may answer differently) and the request. -/
abbrev Oracle := Nat → ChatRequest → Except CallErr RawReply

/-- Result record returned by `process_item`. The `response` field holds
the parsed JSON reply (not necessarily an object: `json.loads` may return
any JSON value), or the fallback object on parse failure. -/
structure ProcessingResult where
  response : JValue
  prompt_tokens : Nat
  completion_tokens : Nat
  total_tokens : Nat
  model : String

/-- System message literal from `process_item`. -/
def systemMessage : String :=
  "You are an AI assistant for data processing. \nYou must respond with a valid JSON object containing the requested fields.\nDo not include any text outside the JSON object."

/-- Comma-separated quoted field names (`fields_description`). -/
def fieldsDescription (output_fields : List String) : String :=
  joinSep ", " (output_fields.map (fun f => "\"" ++ f ++ "\""))

/-- Request built by `process_item`: fixed system message, user message
equal to the prompt followed by the output-field instruction, JSON-object
response format, temperature 0.7, at most 1000 completion tokens. -/
def mkRequest (prompt : String) (output_fields : List String) (model : String) : ChatRequest :=
  { model := model
    systemMessage := systemMessage
    userMessage :=
      prompt ++ "\n\nRespond with a JSON object containing these fields: " ++ fieldsDescription output_fields
    temperature := 7/10
    maxTokens := 1000
    jsonFormat := true }

/-- Parsing step of `process_item`: `json.loads` the reply text; on
`JSONDecodeError` fall back to an object carrying the raw text. -/
def parsedResponse (content : String) : JValue :=
  match jsonParse content with
  | some v => v
  | none => .obj [("raw_response", .str content)]

/-- Embedding of `OpenAIProcessingService.process_item`: build the
messages, perform the remote call (the oracle, indexed by the number of
calls made so far in the run), parse the reply, and return the result
with the usage counts exactly as reported. A transport error from the
call propagates (the method does not catch it). -/
def process_item (oracle : Oracle) (callIdx : Nat) (prompt : String)
    (output_fields : List String) (model : String) : Except CallErr ProcessingResult :=
  match oracle callIdx (mkRequest prompt output_fields model) with
  | .error e => .error e
  | .ok reply =>
      .ok { response := parsedResponse reply.content
            prompt_tokens := reply.prompt_tokens
            completion_tokens := reply.completion_tokens
            total_tokens := reply.total_tokens
            model := reply.model }

/-- Static pricing table of `estimate_cost` (per-1000-token rates):
0.00015/0.0006 for gpt-4o-mini, 0.0025/0.01 for gpt-4o, 0.01/0.03 for
gpt-4-turbo, as exact rationals. -/
def pricing : List (String × (ℚ × ℚ)) :=
  [("gpt-4o-mini", (3/20000, 3/5000)),
   ("gpt-4o", (1/400, 1/100)),
   ("gpt-4-turbo", (1/100, 3/100))]

/-- Exact-real idealization of `estimate_cost`: look the model up in the
pricing table, defaulting to the gpt-4o-mini entry, then apply the linear
per-1000-token formula over ℚ. The program actually computes in IEEE-754
doubles and its results differ from these rationals by rounding (see
`estimate_cost_fp` below for the bit-exact float semantics, on which the
numerical claim about cost values is settled); this idealization is used
only in pipeline-level statements that are insensitive to rounding —
which model identifier prices a run, that zero tokens cost zero, and
that two differently-priced models give different costs (their float
costs differ too). -/
def estimate_cost (prompt_tokens completion_tokens : Nat) (model : String) : ℚ :=
  let mp := (pricing.lookup model).getD (3/20000, 3/5000)
  (prompt_tokens : ℚ) / 1000 * mp.1 + (completion_tokens : ℚ) / 1000 * mp.2

/-- Embedding of the credential resolution in
`OpenAIProcessingService.__init__`: `api_key or os.getenv("OPENAI_API_KEY")`
followed by a falsiness check; `none` means the constructor raises
`ValueError` (empty strings are falsy). -/
def resolveKey (apiKey envKey : Option String) : Option String :=
  let k := match apiKey with
    | some s => if s = "" then envKey else some s
    | none => envKey
  match k with
  | some s => if s = "" then none else some s
  | none => none

/-! ## Step pipeline (`process_dataframe` in `app.py`) -/

/-- The dataframe: named columns and row-major cells. `app.py` mutates it
through `result_df.at[row, col]`, which pandas implements by updating one
cell for an existing column and, for a new column, appending the column
with `nan` in every other row. -/
structure DF where
  cols : List String
  cells : List (List JValue)

/-- One configured processing step (`{"prompt": ..., "output_fields": ...,
"model": ...}` in session state); `output_fields` is the raw
comma-separated configuration string. -/
structure Step where
  prompt : String
  output_fields : String
  model : String

/-- Python `s.strip()` whitespace set. -/
def isStripChar (c : Char) : Bool :=
  c = ' ' || c = '\t' || c = '\n' || c = '\r' || c = Char.ofNat 11 || c = Char.ofNat 12

/-- Split on commas, keeping empty pieces, as Python `s.split(",")`. -/
def splitCommaAux : List Char → List Char → List (List Char)
  | [], acc => [acc.reverse]
  | c :: rest, acc => if c = ',' then acc.reverse :: splitCommaAux rest [] else splitCommaAux rest (c :: acc)

/-- Strip leading and trailing whitespace, as Python `s.strip()`. -/
def stripChars (l : List Char) : List Char :=
  ((l.dropWhile isStripChar).reverse.dropWhile isStripChar).reverse

/-- Embedding of `[f.strip() for f in step["output_fields"].split(",")]`. -/
def splitFields (s : String) : List String :=
  (splitCommaAux s.data []).map (fun l => String.mk (stripChars l))

/-- Index of the first column with the given name, as pandas column
lookup. -/
def colIdx : List String → String → Option Nat
  | [], _ => none
  | c :: cs, x => if c = x then some 0 else (colIdx cs x).map (· + 1)

/-- Append one cell to every row: the given value at row `i` (counting
from `k`), `nan` elsewhere — pandas' backfill when `.at` creates a new
column. -/
def padCol (i : Nat) (v : JValue) : Nat → List (List JValue) → List (List JValue)
  | _, [] => []
  | j, row :: rest => (row ++ [if j = i then v else JValue.nan]) :: padCol i v (j + 1) rest

/-- Embedding of `result_df.at[i, c] = v`: update the cell when the
column exists (rows out of range are untouched; the pipeline only writes
to a row it has just read), otherwise append a new column holding `v` at
row `i` and `nan` in every other row. -/
def dfSetAt (df : DF) (i : Nat) (c : String) (v : JValue) : DF :=
  match colIdx df.cols c with
  | some j =>
      { df with cells :=
          match df.cells.get? i with
          | some row => df.cells.set i (row.set j v)
          | none => df.cells }
  | none => { cols := df.cols ++ [c], cells := padCol i v 0 df.cells }

/-- Embedding of `result_df.iloc[i].to_dict()`: the row as a dictionary
over the column names, `none` when the row index is out of range
(IndexError). -/
def dfRowDict (df : DF) (i : Nat) : Option Row :=
  (df.cells.get? i).map (fun r => df.cols.zip r)

/-- Errors that escape `process_dataframe` (the only caught exception is
the constructor's ValueError): IndexError from `iloc` on an empty table
in preview mode, a transport error from the model call, AttributeError
from `.items()` on a non-dict parsed reply. -/
inductive PipeErr where
  | indexError
  | modelCallError (e : CallErr)
  | attrError

/-- State carried through the steps of one row: the dataframe being
mutated, the `row_data` dictionary, the two token accumulators and the
number of model calls made so far. -/
structure StepState where
  df : DF
  row : Row
  ptoks : Nat
  ctoks : Nat
  calls : Nat

/-- Run one configured step on the current row: skip if the prompt or the
output-fields string is empty; otherwise render the prompt from the
current row state, call the model, merge each response field into the
dataframe (stringified) and into `row_data` (raw), and add the reported
usage to the accumulators. -/
def runStep (oracle : Oracle) (rowIdx : Nat) (st : StepState) (step : Step) :
    Except PipeErr StepState :=
  if step.prompt = "" ∨ step.output_fields = "" then .ok st
  else
    match process_item oracle st.calls (replace_placeholders step.prompt st.row)
        (splitFields step.output_fields) step.model with
    | .error e => .error (.modelCallError e)
    | .ok result =>
      match itemsOf result.response with
      | none => .error .attrError
      | some kvs =>
          .ok { df := kvs.foldl (fun d p => dfSetAt d rowIdx ("AI_" ++ p.1) (strCell p.2)) st.df
                row := kvs.foldl (fun r p => rowSet r ("AI_" ++ p.1) p.2) st.row
                ptoks := st.ptoks + result.prompt_tokens
                ctoks := st.ctoks + result.completion_tokens
                calls := st.calls + 1 }

/-- State carried across rows. -/
structure LoopState where
  df : DF
  ptoks : Nat
  ctoks : Nat
  calls : Nat

/-- Run all steps on row `rowIdx`: read the row dictionary (IndexError if
out of range), then fold the steps. -/
def runRow (oracle : Oracle) (steps : List Step) (ls : LoopState) (rowIdx : Nat) :
    Except PipeErr LoopState :=
  match dfRowDict ls.df rowIdx with
  | none => .error .indexError
  | some row =>
    (List.foldlM (runStep oracle rowIdx)
        { df := ls.df, row := row, ptoks := ls.ptoks, ctoks := ls.ctoks, calls := ls.calls }
        steps).map
      (fun st => { df := st.df, ptoks := st.ptoks, ctoks := st.ctoks, calls := st.calls })

/-- Aggregate run summary written to session state at the end of a run. -/
structure Summary where
  prompt_tokens : Nat
  completion_tokens : Nat
  estimated_cost : ℚ

/-- Observable outcome of `process_dataframe` when no exception escapes:
either the service constructor failed (ValueError caught, input returned
unchanged, session totals not written), or the run completed with the
enriched table, the summary written to session state, and the number of
model calls performed. -/
inductive RunResult where
  | credFail (table : DF)
  | ok (table : DF) (summary : Summary) (calls : Nat)

/-- Model used to price the whole run:
`steps[0]["model"] if steps else "gpt-4o-mini"`. -/
def firstModel : List Step → String
  | [] => "gpt-4o-mini"
  | s :: _ => s.model

/-- Embedding of `process_dataframe(df, steps, preview_only)`. The
environment variable read by the service constructor is passed
explicitly; the constructor argument is `None` at this call site, as in
the source. The row range is `1 if preview_only else len(result_df)`,
even for an empty table; the summary prices the aggregate totals with the
first configured step's model (default string when no steps). -/
def process_dataframe (envKey : Option String) (oracle : Oracle) (df : DF)
    (steps : List Step) (preview_only : Bool) : Except PipeErr RunResult :=
  match resolveKey none envKey with
  | none => .ok (.credFail df)
  | some _ =>
    let rows_to_process := if preview_only then 1 else df.cells.length
    match List.foldlM (runRow oracle steps)
        { df := df, ptoks := 0, ctoks := 0, calls := 0 }
        (List.range rows_to_process) with
    | .error e => .error e
    | .ok ls =>
        .ok (.ok ls.df
          { prompt_tokens := ls.ptoks
            completion_tokens := ls.ctoks
            estimated_cost := estimate_cost ls.ptoks ls.ctoks (firstModel steps) }
          ls.calls)

/-! ## General lemmas about the pipeline -/

/-- Unfolding of `process_dataframe` once the credential resolves. -/
theorem process_dataframe_eq_fold (envKey : Option String) (k : String) (oracle : Oracle)
    (df : DF) (steps : List Step) (p : Bool) (hk : resolveKey none envKey = some k) :
    process_dataframe envKey oracle df steps p =
      match List.foldlM (runRow oracle steps)
          { df := df, ptoks := 0, ctoks := 0, calls := 0 }
          (List.range (if p then 1 else df.cells.length)) with
      | .error e => .error e
      | .ok ls =>
          .ok (.ok ls.df
            { prompt_tokens := ls.ptoks
              completion_tokens := ls.ctoks
              estimated_cost := estimate_cost ls.ptoks ls.ctoks (firstModel steps) }
            ls.calls) := by
  unfold process_dataframe
  rw [hk]

/-- A step with an empty prompt or an empty output-fields string leaves
the step state untouched. -/
theorem runStep_skip (oracle : Oracle) (i : Nat) (st : StepState) (step : Step)
    (h : step.prompt = "" ∨ step.output_fields = "") :
    runStep oracle i st step = .ok st := by
  simp [runStep, h]

/-- A list of steps that are all skippable folds to the unchanged state. -/
theorem foldlM_runStep_skip (oracle : Oracle) (i : Nat) (steps : List Step)
    (h : ∀ s ∈ steps, s.prompt = "" ∨ s.output_fields = "") :
    ∀ st : StepState, List.foldlM (runStep oracle i) st steps = .ok st := by
  induction steps with
  | nil => intro st; rfl
  | cons s rest ih =>
      intro st
      rw [List.foldlM_cons, runStep_skip oracle i st s (h s (by simp))]
      show List.foldlM (runStep oracle i) st rest = .ok st
      exact ih (fun s hs => h s (by simp [hs])) st

/-- Running a valid row index over skippable steps leaves the loop state
unchanged. -/
theorem runRow_skip (oracle : Oracle) (steps : List Step) (ls : LoopState) (i : Nat)
    (hrow : i < ls.df.cells.length)
    (h : ∀ s ∈ steps, s.prompt = "" ∨ s.output_fields = "") :
    runRow oracle steps ls i = .ok ls := by
  unfold runRow dfRowDict
  cases hg : ls.df.cells.get? i with
  | none => exact absurd (List.get?_eq_none.mp hg) (Nat.not_le.mpr hrow)
  | some r =>
      simp only [Option.map_some']
      rw [foldlM_runStep_skip oracle i steps h]
      rfl

/-- Zero tokens cost nothing under any model identifier. -/
theorem estimate_cost_zero (m : String) : estimate_cost 0 0 m = 0 := by
  simp [estimate_cost]

/-! ## Concrete fixtures used by witnesses and counterexamples -/

/-- Oracle that always answers with a one-field JSON object. -/
def exOracle : Oracle := fun _ _ => .ok ⟨"\x7b\"s\": \"pos\"\x7d", 10, 5, 15, "gpt-4o-mini"⟩

/-- Two-row, one-column table. -/
def exDf2 : DF := ⟨["c"], [[ .str "r1" ], [ .str "r2" ]]⟩

/-- One-row, one-column table. -/
def exDf1 : DF := ⟨["c"], [[ .str "r1" ]]⟩

/-- A configured step referencing column `c`. -/
def exStepA : Step := ⟨"Analyze: {@c}", "s", "gpt-4o-mini"⟩

/-- A step with an empty prompt (skippable). -/
def exStepEmpty : Step := ⟨"", "s", "gpt-4o-mini"⟩

/-! ## C4: steps with empty prompt or empty output fields are no-ops -/

/-- C4: a step whose prompt is empty or whose output-fields string is
empty is skipped without error: at step level it returns the state
unchanged (same dataframe, same token totals, same call count); at run
level, a run whose steps are all such no-ops (over a row range the table
covers) returns the table unchanged, a zero-valued summary and zero model
calls. -/
theorem claim_C4 :
    (∀ (oracle : Oracle) (i : Nat) (st : StepState) (step : Step),
      step.prompt = "" ∨ step.output_fields = "" → runStep oracle i st step = .ok st) ∧
    (∀ (envKey : Option String) (k : String) (oracle : Oracle) (df : DF)
      (steps : List Step) (preview : Bool),
      resolveKey none envKey = some k →
      (∀ s ∈ steps, s.prompt = "" ∨ s.output_fields = "") →
      (preview = true → df.cells ≠ []) →
      process_dataframe envKey oracle df steps preview =
        .ok (.ok df ⟨0, 0, 0⟩ 0)) := by
  constructor
  · exact fun oracle i st step h => runStep_skip oracle i st step h
  · intro envKey k oracle df steps preview hk hsteps hne
    rw [process_dataframe_eq_fold envKey k oracle df steps preview hk]
    have hfold : List.foldlM (runRow oracle steps)
        ({ df := df, ptoks := 0, ctoks := 0, calls := 0 } : LoopState)
        (List.range (if preview then 1 else df.cells.length)) =
        .ok { df := df, ptoks := 0, ctoks := 0, calls := 0 } := by
      have hidx : ∀ i ∈ List.range (if preview then 1 else df.cells.length),
          i < df.cells.length := by
        intro i hi
        cases preview with
        | true =>
            have h0 : i < 1 := List.mem_range.mp (by simpa using hi)
            have : df.cells ≠ [] := hne rfl
            have hpos : 0 < df.cells.length := List.length_pos.mpr this
            omega
        | false => exact List.mem_range.mp (by simpa using hi)
      revert hidx
      generalize List.range (if preview then 1 else df.cells.length) = l
      intro hidx
      induction l with
      | nil => rfl
      | cons i rest ih =>
          rw [List.foldlM_cons,
            runRow_skip oracle steps _ i (hidx i (by simp)) hsteps]
          exact ih (fun j hj => hidx j (by simp [hj]))
    rw [hfold]
    simp [estimate_cost_zero]

/-- Witness for C4 at concrete inputs: a skippable step leaves a concrete
state unchanged, and a run consisting only of that step returns the table
unchanged with a zero summary and no calls. -/
theorem claim_C4_witness :
    runStep exOracle 0 ⟨exDf1, [("c", .str "r1")], 0, 0, 0⟩ exStepEmpty =
      .ok ⟨exDf1, [("c", .str "r1")], 0, 0, 0⟩ ∧
    process_dataframe (some "key") exOracle exDf1 [exStepEmpty] false =
      .ok (.ok exDf1 ⟨0, 0, 0⟩ 0) := by
  constructor
  · exact claim_C4.1 exOracle 0 ⟨exDf1, [("c", .str "r1")], 0, 0, 0⟩ exStepEmpty (Or.inl rfl)
  · exact claim_C4.2 (some "key") "key" exOracle exDf1 [exStepEmpty] false rfl
      (by intro s hs; simp at hs; subst hs; exact Or.inl rfl)
      (by intro h; cases h)

/-! ## C10: missing credential is absorbed at the pipeline entry point -/

/-- C10: when no API key is passed (the call site passes none) and none
is present in the environment, the service constructor's ValueError is
caught inside `process_dataframe`, which performs no model call (the
result does not depend on the oracle) and returns the input table
unchanged. -/
theorem claim_C10 (envKey : Option String) (oracle : Oracle) (df : DF)
    (steps : List Step) (preview : Bool) (h : envKey = none) :
    process_dataframe envKey oracle df steps preview = .ok (.credFail df) := by
  subst h
  rfl

/-- Witness for C10 at concrete inputs. -/
theorem claim_C10_witness :
    process_dataframe none exOracle exDf2 [exStepA] true = .ok (.credFail exDf2) :=
  claim_C10 none exOracle exDf2 [exStepA] true rfl

/-! ## C6: non-JSON replies never raise and are preserved verbatim -/

/-- C6: when the remote call succeeds but the reply text is not valid
JSON, `process_item` does not raise: it returns a result whose response
is exactly the object binding `raw_response` to the raw reply text, with
the reported usage counts. -/
theorem claim_C6 (oracle : Oracle) (callIdx : Nat) (prompt : String)
    (fields : List String) (model : String) (reply : RawReply)
    (hcall : oracle callIdx (mkRequest prompt fields model) = .ok reply)
    (hparse : jsonParse reply.content = none) :
    process_item oracle callIdx prompt fields model =
      .ok { response := .obj [("raw_response", .str reply.content)]
            prompt_tokens := reply.prompt_tokens
            completion_tokens := reply.completion_tokens
            total_tokens := reply.total_tokens
            model := reply.model } := by
  simp [process_item, hcall, parsedResponse, hparse]

/-- Oracle answering with the literal text `not json`. -/
def exOracleC6 : Oracle := fun _ _ => .ok ⟨"not json", 3, 4, 7, "gpt-4o-mini"⟩

/-- Witness for C6: the reply `not json` is rejected by the JSON parser
and handed back under `raw_response`. -/
theorem claim_C6_witness :
    jsonParse "not json" = none ∧
    process_item exOracleC6 0 "p" ["f"] "gpt-4o-mini" =
      .ok { response := .obj [("raw_response", .str "not json")]
            prompt_tokens := 3, completion_tokens := 4, total_tokens := 7
            model := "gpt-4o-mini" } :=
  ⟨rfl, claim_C6 exOracleC6 0 "p" ["f"] "gpt-4o-mini"
    ⟨"not json", 3, 4, 7, "gpt-4o-mini"⟩ rfl rfl⟩

/-! ## C8: the cost formula

The program evaluates the cost formula in IEEE-754 binary64 ("double")
arithmetic. The section below models nonnegative normal-range doubles
bit-exactly: a value is a pair `m * 2^e`, and every operation performs
one round-to-nearest, ties-to-even of the exact result, which is the
IEEE behavior of `+`, `*`, int/int true division and decimal-literal
parsing. Overflow, subnormals, NaN and negative values never arise in
this computation and are not modelled. -/

/-- Nonnegative binary64 value `m * 2^e` (normalized by the constructors
below: `m = 0` or `2^52 ≤ m < 2^53`). -/
structure FP where
  m : Nat
  e : Int
deriving DecidableEq

/-- Fuelled bit length (the fuel argument dominates the halvings, and
`natBits n n` always suffices). -/
def natBits : Nat → Nat → Nat
  | 0, _ => 0
  | fuel+1, n => if n = 0 then 0 else natBits fuel (n / 2) + 1

/-- Number of binary digits of a natural number. -/
def bitLen (n : Nat) : Nat := natBits n n

/-- Round the exact rational `(n / d) * 2^E` to the nearest binary64
value, ties to even: scale so the integer quotient keeps 56–57 bits,
then round it to 53 bits using the remainder as the sticky bit. -/
def roundRat (n d : Nat) (E : Int) : FP :=
  if n = 0 ∨ d = 0 then ⟨0, 0⟩
  else
    let k : Int := 56 + (bitLen d : Int) - (bitLen n : Int)
    let N := n * 2 ^ k.toNat
    let D := d * 2 ^ (-k).toNat
    let q := N / D
    let r := N % D
    let s := bitLen q - 53
    let md := 2 ^ s
    let rem := q % md
    let qt := q / md
    let half := md / 2
    let up : Bool :=
      if half < rem then true
      else if rem < half then false
      else if r ≠ 0 then true
      else decide (qt % 2 = 1)
    let q2 := if up then qt + 1 else qt
    if q2 = 2 ^ 53 then ⟨2 ^ 52, E - k + (s : Int) + 1⟩ else ⟨q2, E - k + (s : Int)⟩

/-- IEEE double addition: one rounding of the exact sum. -/
def fpAdd (x y : FP) : FP :=
  let e := min x.e y.e
  roundRat (x.m * 2 ^ (x.e - e).toNat + y.m * 2 ^ (y.e - e).toNat) 1 e

/-- IEEE double multiplication: one rounding of the exact product. -/
def fpMul (x y : FP) : FP := roundRat (x.m * y.m) 1 (x.e + y.e)

/-- The double denoted by the decimal literal `digits × 10^(-frac)`
(Python parses float literals to the nearest double). -/
def fpOfDec (digits frac : Nat) : FP := roundRat digits (10 ^ frac) 0

/-- The pricing table as the doubles the Python literals denote. -/
def pricing_fp : List (String × (FP × FP)) :=
  [("gpt-4o-mini", (fpOfDec 15 5, fpOfDec 6 4)),
   ("gpt-4o", (fpOfDec 25 4, fpOfDec 1 2)),
   ("gpt-4-turbo", (fpOfDec 1 2, fpOfDec 3 2))]

/-- Bit-exact embedding of `estimate_cost`: `tokens / 1000` is Python
int/int true division (one correct rounding of the exact quotient), each
multiplication and the final addition round once, exactly as the source
expression `(prompt_tokens / 1000) * rate_in + (completion_tokens / 1000)
* rate_out` evaluates in doubles. The rational-valued `estimate_cost`
above is the exact-real idealization of this function, used only where
claims are insensitive to rounding. -/
def estimate_cost_fp (prompt_tokens completion_tokens : Nat) (model : String) : FP :=
  let mp := (pricing_fp.lookup model).getD (fpOfDec 15 5, fpOfDec 6 4)
  fpAdd (fpMul (roundRat prompt_tokens 1000 0) mp.1)
    (fpMul (roundRat completion_tokens 1000 0) mp.2)

/-- Modelled from the claim's words: the input rate of a model as a
double, with unknown identifiers falling back to the default gpt-4o-mini
rate. -/
def input_rate_fp (m : String) : FP :=
  match pricing_fp.lookup m with
  | some p => p.1
  | none => fpOfDec 15 5

/-- Modelled from the claim's words: the output rate of a model as a
double, with unknown identifiers falling back to the default gpt-4o-mini
rate. -/
def output_rate_fp (m : String) : FP :=
  match pricing_fp.lookup m with
  | some p => p.2
  | none => fpOfDec 6 4

set_option maxRecDepth 8000 in
/-- Counterexample to C8 as stated: in the program's IEEE-754 double
arithmetic, `estimate_cost(1000, 1000, "gpt-4o-mini")` evaluates to the
double `6917529027641081 × 2^-63` (that is, 0.0007499999999999999…),
which is one unit in the last place BELOW the double denoted by the
literal `0.00075` (`6917529027641082 × 2^-63`), so the claimed equality
is false of the code. -/
theorem claim_C8_counterexample :
    estimate_cost_fp 1000 1000 "gpt-4o-mini" = ⟨6917529027641081, -63⟩ ∧
    fpOfDec 75 5 = ⟨6917529027641082, -63⟩ ∧
    estimate_cost_fp 1000 1000 "gpt-4o-mini" ≠ fpOfDec 75 5 := by
  refine ⟨by decide, by decide, by decide⟩

set_option maxRecDepth 8000 in
/-- C8 as amended: `estimate_cost` evaluates the linear per-1000-token
formula over the pricing table with the gpt-4o-mini fallback in IEEE-754
double arithmetic (each division, multiplication and addition rounding
once); for 1000 prompt and 1000 completion tokens under gpt-4o-mini the
result is the double `6917529027641081 × 2^-63` = 0.0007499999999999999…,
one ulp below the double `0.00075` rather than equal to it; and an
unrecognized model identifier yields exactly the same double as
gpt-4o-mini for the same counts. -/
theorem claim_C8 :
    (∀ (p c : Nat) (m : String),
      estimate_cost_fp p c m =
        fpAdd (fpMul (roundRat p 1000 0) (input_rate_fp m))
          (fpMul (roundRat c 1000 0) (output_rate_fp m))) ∧
    estimate_cost_fp 1000 1000 "gpt-4o-mini" = ⟨6917529027641081, -63⟩ ∧
    estimate_cost_fp 1000 1000 "some-unrecognized-model" =
      estimate_cost_fp 1000 1000 "gpt-4o-mini" := by
  refine ⟨?_, by decide, by decide⟩
  intro p c m
  cases h : pricing_fp.lookup m <;>
    simp [estimate_cost_fp, input_rate_fp, output_rate_fp, h]

/-! ## C5: a transport failure aborts the run and discards partial work -/

/-- Oracle whose first call succeeds and whose second call fails with an
auth error. -/
def exOracleC5 : Oracle := fun callIdx _ =>
  if callIdx = 0 then .ok ⟨"\x7b\"s\": \"pos\"\x7d", 10, 5, 15, "gpt-4o-mini"⟩
  else .error ⟨"auth"⟩

/-- Counterexample to C5 as stated: with two configured steps on one row,
the first model call succeeds (enriching the row and accumulating 10+5
tokens) and the second fails; `process_dataframe` then evaluates to the
propagated error and nothing else — the claim's promised outcome, a
result carrying the already-enriched rows and the accumulated token
totals, is not returned (the error constructor carries neither). -/
theorem claim_C5_counterexample :
    process_dataframe (some "key") exOracleC5 exDf1 [exStepA, exStepA] true =
      .error (.modelCallError ⟨"auth"⟩) := rfl

/-- C5 as amended: when a model call raises a transport/auth error, the
step (and with it the run) aborts by propagating the error; the failure
is reported to the caller as the run's outcome, and the rows already
enriched and the token totals accumulated so far are discarded rather
than returned (session totals are only written after a completed run). -/
theorem claim_C5 (oracle : Oracle) (i : Nat) (st : StepState) (step : Step) (e : CallErr)
    (h1 : ¬ (step.prompt = "" ∨ step.output_fields = ""))
    (h2 : oracle st.calls (mkRequest (replace_placeholders step.prompt st.row)
        (splitFields step.output_fields) step.model) = .error e) :
    runStep oracle i st step = .error (.modelCallError e) := by
  simp [runStep, h1, process_item, h2]

/-- Oracle that always fails. -/
def exOracleC5w : Oracle := fun _ _ => .error ⟨"network"⟩

/-- Witness for C5 at concrete inputs. -/
theorem claim_C5_witness :
    runStep exOracleC5w 0 ⟨exDf1, [("c", .str "r1")], 0, 0, 0⟩ exStepA =
      .error (.modelCallError ⟨"network"⟩) :=
  claim_C5 exOracleC5w 0 ⟨exDf1, [("c", .str "r1")], 0, 0, 0⟩ exStepA ⟨"network"⟩
    (by decide) rfl

/-! ## C7: the run is priced with the first step's model, not the last -/

/-- Oracle reporting 1000 prompt and 1000 completion tokens per call. -/
def exOracleC7 : Oracle := fun _ _ =>
  .ok ⟨"\x7b\"s\": \"pos\"\x7d", 1000, 1000, 2000, "m"⟩

/-- Step configured with the gpt-4o model. -/
def exStepBig : Step := ⟨"Check: {@c}", "s", "gpt-4o"⟩

/-- Counterexample to C7 as stated: a preview run with first step on
gpt-4o-mini and last step on gpt-4o accumulates 2000+2000 tokens and
prices them with the FIRST step's model; the value under the last step's
model is different, so the summary is not computed from the last
configured step's model identifier. -/
theorem claim_C7_counterexample :
    process_dataframe (some "key") exOracleC7 exDf1 [exStepA, exStepBig] true =
      .ok (.ok ⟨["c", "AI_s"], [[ .str "r1", .str "pos" ]]⟩
        ⟨2000, 2000, estimate_cost 2000 2000 "gpt-4o-mini"⟩ 2) ∧
    estimate_cost 2000 2000 "gpt-4o-mini" ≠ estimate_cost 2000 2000 "gpt-4o" := by
  constructor
  · rfl
  · have h1 : estimate_cost 2000 2000 "gpt-4o-mini" =
        (2000 : ℚ) / 1000 * (3/20000) + (2000 : ℚ) / 1000 * (3/5000) := rfl
    have h2 : estimate_cost 2000 2000 "gpt-4o" =
        (2000 : ℚ) / 1000 * (1/400) + (2000 : ℚ) / 1000 * (1/100) := rfl
    rw [h1, h2]; norm_num

/-- C7 as amended: for every run with at least one configured step that
returns a summary, the estimated cost equals the cost of the aggregated
token totals priced with the model identifier of the FIRST configured
step. -/
theorem claim_C7 (envKey : Option String) (k : String) (oracle : Oracle) (df : DF)
    (s0 : Step) (rest : List Step) (preview : Bool) (out : DF) (s : Summary) (n : Nat)
    (hk : resolveKey none envKey = some k)
    (hrun : process_dataframe envKey oracle df (s0 :: rest) preview = .ok (.ok out s n)) :
    s.estimated_cost = estimate_cost s.prompt_tokens s.completion_tokens s0.model := by
  rw [process_dataframe_eq_fold envKey k oracle df (s0 :: rest) preview hk] at hrun
  cases hfold : List.foldlM (runRow oracle (s0 :: rest))
      ({ df := df, ptoks := 0, ctoks := 0, calls := 0 } : LoopState)
      (List.range (if preview then 1 else df.cells.length)) with
  | error e => rw [hfold] at hrun; exact absurd hrun (by simp)
  | ok ls =>
      rw [hfold] at hrun
      have hs : s = Summary.mk ls.ptoks ls.ctoks
          (estimate_cost ls.ptoks ls.ctoks (firstModel (s0 :: rest))) := by
        have h := hrun
        simp only [Except.ok.injEq, RunResult.ok.injEq] at h
        exact h.2.1.symm
      rw [hs]
      rfl

/-- Witness for C7 at concrete inputs: a run with one skippable step
(still a configured step) prices the zero totals with that step's model. -/
theorem claim_C7_witness :
    process_dataframe (some "key") exOracle exDf1 [exStepEmpty] false =
      .ok (.ok exDf1 ⟨0, 0, estimate_cost 0 0 "gpt-4o-mini"⟩ 0) ∧
    (⟨0, 0, estimate_cost 0 0 "gpt-4o-mini"⟩ : Summary).estimated_cost =
      estimate_cost 0 0 exStepEmpty.model := by
  refine ⟨rfl, claim_C7 (some "key") "key" exOracle exDf1 exStepEmpty [] false exDf1
    ⟨0, 0, estimate_cost 0 0 "gpt-4o-mini"⟩ 0 rfl rfl⟩

/-! ## C3: chained steps see earlier AI values in the row state -/

/-- Looking up a key just set yields the new value. -/
theorem rowGet_rowSet_self (r : Row) (k : String) (v : JValue) :
    rowGet (rowSet r k v) k = some v := by
  induction r with
  | nil => simp [rowSet, rowGet]
  | cons p rest ih =>
      by_cases h : p.1 = k
      · simp [rowSet, rowGet, h]
      · simp [rowSet, rowGet, h, ih]

/-- Setting one key does not change the lookup of another. -/
theorem rowGet_rowSet_ne (r : Row) (k k' : String) (v : JValue) (h : k' ≠ k) :
    rowGet (rowSet r k v) k' = rowGet r k' := by
  induction r with
  | nil =>
      have h' : ¬ (k = k') := fun hh => h hh.symm
      simp [rowSet, rowGet, h']
  | cons p rest ih =>
      by_cases hp : p.1 = k
      · simp [rowSet, rowGet, hp, Ne.symm h]
      · simp only [rowSet, hp, if_false]
        by_cases hp' : p.1 = k'
        · simp [rowGet, hp']
        · simp [rowGet, hp', ih]

/-- The value a Python dict ends up holding for a key after inserting the
pairs of a list in order: the last occurrence wins. -/
def lastGet : List (String × JValue) → String → Option JValue
  | [], _ => none
  | (k', v) :: rest, k =>
      match lastGet rest k with
      | some w => some w
      | none => if k' = k then some v else none

/-- Unfolding `lastGet` over a snoc. -/
theorem lastGet_append_single (l : List (String × JValue)) (p : String × JValue) (k : String) :
    lastGet (l ++ [p]) k = if p.1 = k then some p.2 else lastGet l k := by
  induction l with
  | nil => cases p; simp [lastGet]
  | cons q rest ih =>
      cases q with
      | mk qk qv =>
          show (match lastGet (rest ++ [p]) k with
            | some w => some w
            | none => if qk = k then some qv else none) = _
          rw [ih]
          by_cases hpk : p.1 = k
          · simp [hpk]
          · simp only [hpk, if_false]
            rfl

/-- Prepending a fixed string to equal results comes from equal suffixes;
contrapositive of injectivity of `String.append` on the left. -/
theorem string_append_left_inj (p a b : String) (h : a ≠ b) : p ++ a ≠ p ++ b := by
  intro hab
  apply h
  have hd : (p ++ a).data = (p ++ b).data := by rw [hab]
  rw [String.data_append, String.data_append] at hd
  have h3 : a.data = b.data := List.append_cancel_left hd
  cases a with
  | mk la => cases b with
    | mk lb => exact congrArg String.mk (by simpa using h3)

/-- Folding Python-dict insertions of AI-prefixed fields over a row makes
each field's (last-occurrence) value retrievable under its AI column
name. -/
theorem rowGet_foldl_rowSet (row : Row) (kvs : List (String × JValue)) :
    ∀ (F : String) (v : JValue), lastGet kvs F = some v →
    rowGet (kvs.foldl (fun r p => rowSet r ("AI_" ++ p.1) p.2) row) ("AI_" ++ F) = some v := by
  induction kvs using List.reverseRecOn with
  | nil => intro F v h; simp [lastGet] at h
  | append_singleton l p ih =>
      intro F v h
      rw [lastGet_append_single] at h
      rw [List.foldl_append]
      by_cases hp : p.1 = F
      · simp only [hp, if_true] at h
        cases h
        show rowGet (rowSet _ ("AI_" ++ p.1) p.2) ("AI_" ++ F) = some p.2
        rw [hp]
        exact rowGet_rowSet_self _ _ _
      · simp only [hp, if_false] at h
        show rowGet (rowSet _ ("AI_" ++ p.1) p.2) ("AI_" ++ F) = some v
        rw [rowGet_rowSet_ne _ _ _ _ (string_append_left_inj "AI_" F p.1 (fun hh => hp hh.symm))]
        exact ih F v h

/-- C3: when a step executes (non-skippable, successful call, object
response), the row state produced for the following step binds, for every
field F of the parsed response, the key `AI_F` to the step's parsed value
for F (as a Python dict, the last occurrence of a duplicate JSON key
wins; the parser already deduplicates this way). -/
theorem claim_C3 (oracle : Oracle) (i : Nat) (st : StepState) (step : Step)
    (reply : RawReply) (kvs : List (String × JValue)) (st' : StepState)
    (h1 : ¬ (step.prompt = "" ∨ step.output_fields = ""))
    (h2 : oracle st.calls (mkRequest (replace_placeholders step.prompt st.row)
        (splitFields step.output_fields) step.model) = .ok reply)
    (h3 : itemsOf (parsedResponse reply.content) = some kvs)
    (h4 : runStep oracle i st step = .ok st') :
    ∀ (F : String) (v : JValue), lastGet kvs F = some v →
      rowGet st'.row ("AI_" ++ F) = some v := by
  intro F v hF
  have hrow : st'.row = kvs.foldl (fun r p => rowSet r ("AI_" ++ p.1) p.2) st.row := by
    simp only [runStep, h1, if_false, process_item, h2, h3] at h4
    have h5 := h4
    simp only [Except.ok.injEq] at h5
    rw [← h5]
  rw [hrow]
  exact rowGet_foldl_rowSet st.row kvs F v hF

/-- Step state of the C3 witness before the step. -/
def exSt0 : StepState := ⟨exDf1, [("c", .str "r1")], 0, 0, 0⟩

/-- Step state of the C3 witness after the step. -/
def exSt1 : StepState :=
  ⟨⟨["c", "AI_s"], [[ .str "r1", .str "pos" ]]⟩,
    [("c", .str "r1"), ("AI_s", .str "pos")], 10, 5, 1⟩

/-- Witness for C3 at concrete inputs: after step 1 parses field `s` to
`"pos"`, the row state handed to the next step binds `AI_s` to it. -/
theorem claim_C3_witness :
    runStep exOracle 0 exSt0 exStepA = .ok exSt1 ∧
    rowGet exSt1.row "AI_s" = some (.str "pos") := by
  refine ⟨rfl, ?_⟩
  exact claim_C3 exOracle 0 exSt0 exStepA ⟨"\x7b\"s\": \"pos\"\x7d", 10, 5, 15, "gpt-4o-mini"⟩
    [("s", .str "pos")] exSt1 (by decide) rfl rfl rfl "s" (.str "pos") rfl

/-! ## C2: preview mode and its frame effect -/

/-- Cells appended by `padCol` at each row index. -/
theorem padCol_get? (l : List (List JValue)) (i : Nat) (v : JValue) :
    ∀ (k j : Nat), (padCol i v k l).get? j =
      (l.get? j).map (fun r => r ++ [if k + j = i then v else JValue.nan]) := by
  induction l with
  | nil => intro k j; simp [padCol]
  | cons row rest ih =>
      intro k j
      cases j with
      | zero => simp [padCol]
      | succ j' =>
          show (padCol i v (k + 1) rest).get? j' = _
          rw [ih (k + 1) j']
          have harith : k + 1 + j' = k + (j' + 1) := by omega
          rw [harith]
          rfl

/-- Relation between the input table and the evolving dataframe under
preview: columns only grow, and every row other than row 0 is exactly its
original cells padded with `nan` under the newly created columns. -/
def previewPadded (df0 df : DF) : Prop :=
  df0.cols.length ≤ df.cols.length ∧
  ∀ j, j ≠ 0 → df.cells.get? j =
    (df0.cells.get? j).map (fun r => r ++ List.replicate (df.cols.length - df0.cols.length) JValue.nan)

/-- Unfolding `dfSetAt` when the column exists. -/
theorem dfSetAt_existing (df : DF) (i : Nat) (c : String) (v : JValue) (jx : Nat)
    (h : colIdx df.cols c = some jx) :
    dfSetAt df i c v =
      { df with cells :=
          match df.cells.get? i with
          | some row => df.cells.set i (row.set jx v)
          | none => df.cells } := by
  unfold dfSetAt
  rw [h]

/-- Unfolding `dfSetAt` when the column is new. -/
theorem dfSetAt_new (df : DF) (i : Nat) (c : String) (v : JValue)
    (h : colIdx df.cols c = none) :
    dfSetAt df i c v = ⟨df.cols ++ [c], padCol i v 0 df.cells⟩ := by
  unfold dfSetAt
  rw [h]

/-- Reduction of `>>=` on an `Except` error. -/
theorem exceptBind_err {ε α β : Type _} (e : ε) (f : α → Except ε β) :
    (Except.error e >>= f) = Except.error e := rfl

/-- Reduction of `>>=` on an `Except` success. -/
theorem exceptBind_ok {ε α β : Type _} (a : α) (f : α → Except ε β) :
    (Except.ok a >>= f) = f a := rfl

/-- A cell write targeting row 0 preserves `previewPadded`: an existing
column touches only row 0, and a new column pads every other row with
`nan`. -/
theorem dfSetAt0_previewPadded (df0 df : DF) (c : String) (v : JValue)
    (h : previewPadded df0 df) : previewPadded df0 (dfSetAt df 0 c v) := by
  obtain ⟨hlen, hrows⟩ := h
  cases hci : colIdx df.cols c with
  | some jx =>
      rw [dfSetAt_existing df 0 c v jx hci]
      cases hg : df.cells.get? 0 with
      | none => exact ⟨hlen, hrows⟩
      | some row =>
          dsimp only
          refine ⟨hlen, ?_⟩
          intro j hj
          have hne : (0 : Nat) ≠ j := fun hh => hj hh.symm
          show (df.cells.set 0 (row.set jx v)).get? j = _
          rw [List.get?_set_ne (row.set jx v) df.cells hne]
          exact hrows j hj
  | none =>
      rw [dfSetAt_new df 0 c v hci]
      refine ⟨by simp; omega, ?_⟩
      intro j hj
      show (padCol 0 v 0 df.cells).get? j = _
      rw [padCol_get? df.cells 0 v 0 j]
      rw [hrows j hj]
      cases hg : df0.cells.get? j with
      | none => rfl
      | some r =>
          simp only [Option.map_some']
          have hz : ¬ (0 + j = 0) := by omega
          simp only [hz, if_false]
          have hlen2 : (df.cols ++ [c]).length - df0.cols.length =
              (df.cols.length - df0.cols.length) + 1 := by simp; omega
          rw [hlen2, List.replicate_succ' (df.cols.length - df0.cols.length) JValue.nan]
          simp [List.append_assoc]

/-- Pure fold preservation. -/
theorem foldl_preserve {σ α : Type _} (P : σ → Prop) (f : σ → α → σ)
    (hf : ∀ s a, P s → P (f s a)) :
    ∀ (l : List α) (s : σ), P s → P (l.foldl f s) := by
  intro l
  induction l with
  | nil => intro s hs; exact hs
  | cons a rest ih => intro s hs; exact ih (f s a) (hf s a hs)

/-- Monadic fold preservation in `Except`. -/
theorem foldlM_except_preserve {σ α ε : Type _} (P : σ → Prop) (f : σ → α → Except ε σ)
    (hf : ∀ s a s', f s a = .ok s' → P s → P s') :
    ∀ (l : List α) (s s' : σ), List.foldlM f s l = .ok s' → P s → P s' := by
  intro l
  induction l with
  | nil =>
      intro s s' h hs
      simp only [List.foldlM_nil] at h
      have h2 : s = s' := by
        simpa only [pure, Except.pure, Except.ok.injEq] using h
      rw [← h2]; exact hs
  | cons a rest ih =>
      intro s s' h hs
      rw [List.foldlM_cons] at h
      cases hfa : f s a with
      | error e =>
          rw [hfa, exceptBind_err] at h
          exact Except.noConfusion h
      | ok s1 =>
          rw [hfa, exceptBind_ok] at h
          exact ih s1 s' h (hf s a s1 hfa hs)

/-- A dataframe predicate preserved by all the cell writes a step can
perform (AI-prefixed columns at row `i`) is preserved by `runStep`. -/
theorem runStep_df_preserve (P : DF → Prop) (oracle : Oracle) (i : Nat)
    (st : StepState) (step : Step) (st' : StepState)
    (hset : ∀ df f v, P df → P (dfSetAt df i ("AI_" ++ f) v))
    (h : runStep oracle i st step = .ok st') : P st.df → P st'.df := by
  intro hp
  unfold runStep at h
  by_cases hskip : step.prompt = "" ∨ step.output_fields = ""
  · rw [if_pos hskip] at h
    cases h
    exact hp
  · rw [if_neg hskip] at h
    cases hpi : process_item oracle st.calls (replace_placeholders step.prompt st.row)
        (splitFields step.output_fields) step.model with
    | error e => rw [hpi] at h; exact Except.noConfusion h
    | ok result =>
        rw [hpi] at h
        dsimp only at h
        cases hio : itemsOf result.response with
        | none => rw [hio] at h; exact Except.noConfusion h
        | some kvs =>
            rw [hio] at h
            dsimp only at h
            have hdf : st'.df = kvs.foldl
                (fun d p => dfSetAt d i ("AI_" ++ p.1) (strCell p.2)) st.df := by
              have h5 := h
              simp only [Except.ok.injEq] at h5
              rw [← h5]
            rw [hdf]
            exact foldl_preserve P _ (fun s a hs => hset s a.1 (strCell a.2) hs) kvs st.df hp

/-- Lifting step-level preservation through one row. -/
theorem runRow_df_preserve (P : DF → Prop) (oracle : Oracle) (steps : List Step)
    (ls : LoopState) (i : Nat) (ls' : LoopState)
    (hset : ∀ df f v, P df → P (dfSetAt df i ("AI_" ++ f) v))
    (h : runRow oracle steps ls i = .ok ls') : P ls.df → P ls'.df := by
  intro hp
  unfold runRow at h
  cases hrd : dfRowDict ls.df i with
  | none => rw [hrd] at h; exact Except.noConfusion h
  | some row =>
      rw [hrd] at h
      dsimp only at h
      cases hfm : List.foldlM (runStep oracle i)
          (StepState.mk ls.df row ls.ptoks ls.ctoks ls.calls) steps with
      | error e => rw [hfm] at h; exact Except.noConfusion h
      | ok st' =>
          rw [hfm] at h
          have hdf : ls'.df = st'.df := by
            have h6 : (LoopState.mk st'.df st'.ptoks st'.ctoks st'.calls) = ls' := by
              have h7 : Except.ok (LoopState.mk st'.df st'.ptoks st'.ctoks st'.calls) =
                  Except.ok ls' := h
              simpa only [Except.ok.injEq] using h7
            rw [← h6]
          rw [hdf]
          exact foldlM_except_preserve (fun st => P st.df) (runStep oracle i)
            (fun s a s' hsa hs => runStep_df_preserve P oracle i s a s' hset hsa hs)
            steps _ st' hfm hp

/-- Lifting row-level preservation through the row loop, for writes at
the row indices the loop actually visits. -/
theorem fold_rows_df_preserve (P : DF → Prop) (oracle : Oracle) (steps : List Step) :
    ∀ (l : List Nat),
    (∀ i ∈ l, ∀ df f v, P df → P (dfSetAt df i ("AI_" ++ f) v)) →
    ∀ (ls ls' : LoopState), List.foldlM (runRow oracle steps) ls l = .ok ls' →
    P ls.df → P ls'.df := by
  intro l
  induction l with
  | nil =>
      intro _ ls ls' h hp
      simp only [List.foldlM_nil] at h
      have h2 : ls = ls' := by
        simpa only [pure, Except.pure, Except.ok.injEq] using h
      rw [← h2]; exact hp
  | cons i rest ih =>
      intro hset ls ls' h hp
      rw [List.foldlM_cons] at h
      cases hfa : runRow oracle steps ls i with
      | error e =>
          rw [hfa, exceptBind_err] at h
          exact Except.noConfusion h
      | ok ls1 =>
          rw [hfa, exceptBind_ok] at h
          exact ih (fun j hj => hset j (by simp [hj])) ls1 ls' h
            (runRow_df_preserve P oracle steps ls i ls1 (hset i (by simp)) hfa hp)

/-- Counterexample to C2 as stated. First conjunct: on an empty table
with `preview_only=true` the pipeline still computes `rows_to_process=1`
and reads row 0, raising IndexError instead of returning the unmodified
empty table with a zero summary. Second conjunct: on a two-row table the
second row does not stay unchanged — creating the `AI_s` column gives it
a `nan` entry. -/
theorem claim_C2_counterexample :
    process_dataframe (some "key") exOracle (⟨["c"], []⟩ : DF) [exStepA] true =
      .error .indexError ∧
    process_dataframe (some "key") exOracle exDf2 [exStepA] true =
      .ok (.ok ⟨["c", "AI_s"], [[ .str "r1", .str "pos" ], [ .str "r2", .nan ]]⟩
        ⟨10, 5, estimate_cost 10 5 "gpt-4o-mini"⟩ 1) :=
  ⟨rfl, rfl⟩

/-- C2 as amended: with `preview_only=true` and a resolvable credential,
(a) an empty table makes the run fail with IndexError (the pipeline still
attempts to read row 0), and (b) a completed preview run touches only row
0's cell values: every other row keeps exactly its original cells, padded
with `nan` entries under the AI columns the preview created. -/
theorem claim_C2 (envKey : Option String) (k : String) (oracle : Oracle) (df : DF)
    (steps : List Step) (hk : resolveKey none envKey = some k) :
    (df.cells = [] → process_dataframe envKey oracle df steps true = .error .indexError) ∧
    (∀ (out : DF) (s : Summary) (n : Nat),
      process_dataframe envKey oracle df steps true = .ok (.ok out s n) →
      df.cols.length ≤ out.cols.length ∧
      ∀ j, j ≠ 0 → out.cells.get? j =
        (df.cells.get? j).map
          (fun r => r ++ List.replicate (out.cols.length - df.cols.length) JValue.nan)) := by
  constructor
  · intro hcells
    rw [process_dataframe_eq_fold envKey k oracle df steps true hk]
    have hrange : List.range (if true then 1 else df.cells.length) = [0] := rfl
    rw [hrange]
    have hrow : runRow oracle steps (LoopState.mk df 0 0 0) 0 = .error .indexError := by
      unfold runRow dfRowDict
      rw [hcells]
      rfl
    rw [List.foldlM_cons, hrow, exceptBind_err]
  · intro out s n hrun
    rw [process_dataframe_eq_fold envKey k oracle df steps true hk] at hrun
    cases hfold : List.foldlM (runRow oracle steps) (LoopState.mk df 0 0 0)
        (List.range (if true then 1 else df.cells.length)) with
    | error e => rw [hfold] at hrun; exact absurd hrun (by simp)
    | ok ls =>
        rw [hfold] at hrun
        have hout : out = ls.df := by
          have h5 := hrun
          simp only [Except.ok.injEq, RunResult.ok.injEq] at h5
          exact h5.1.symm
        have hinv : previewPadded df ls.df := by
          refine fold_rows_df_preserve (previewPadded df) oracle steps
            (List.range (if true then 1 else df.cells.length)) ?_ (LoopState.mk df 0 0 0) ls
            hfold ?_
          · intro i hi df' f v hp
            have hi0 : i = 0 := by
              have : i < 1 := List.mem_range.mp (by simpa using hi)
              omega
            rw [hi0]
            exact dfSetAt0_previewPadded df df' ("AI_" ++ f) v hp
          · refine ⟨le_refl _, ?_⟩
            intro j hj
            simp
        rw [hout]
        exact hinv

/-- Witness for C2's amended statement at concrete inputs (a one-row
table with no steps: the hypotheses are discharged and the run
completes). -/
theorem claim_C2_witness :
    (exDf1.cells = [] →
      process_dataframe (some "key") exOracle exDf1 [] true = .error .indexError) ∧
    (∀ (out : DF) (s : Summary) (n : Nat),
      process_dataframe (some "key") exOracle exDf1 [] true = .ok (.ok out s n) →
      exDf1.cols.length ≤ out.cols.length ∧
      ∀ j, j ≠ 0 → out.cells.get? j =
        (exDf1.cells.get? j).map
          (fun r => r ++ List.replicate (out.cols.length - exDf1.cols.length) JValue.nan)) :=
  claim_C2 (some "key") "key" exOracle exDf1 [] rfl

/-! ## C9: which columns the pipeline can write -/

/-- Column names the pipeline writes always carry the AI prefix. -/
def isAIcol (c : String) : Bool := "AI_".data.isPrefixOf c.data

/-- A list is a Boolean prefix of itself followed by anything. -/
theorem isPrefixOf_append_self {α : Type _} [BEq α] [LawfulBEq α] (l t : List α) :
    l.isPrefixOf (l ++ t) = true := by
  induction l with
  | nil => simp [List.isPrefixOf]
  | cons a as ih => simp [List.isPrefixOf, ih]

/-- Every generated column name is AI-prefixed. -/
theorem isAIcol_AI (f : String) : isAIcol ("AI_" ++ f) = true := by
  unfold isAIcol
  rw [String.data_append]
  exact isPrefixOf_append_self _ _

/-- The values stored under one column name, in row order (`none` when
the column does not exist). -/
def dfCol (df : DF) (c : String) : Option (List JValue) :=
  (colIdx df.cols c).map (fun j => df.cells.map (fun r => (r.get? j).getD JValue.nan))

/-- A found column index is in range. -/
theorem colIdx_lt (l : List String) (c : String) :
    ∀ j, colIdx l c = some j → j < l.length := by
  induction l with
  | nil => intro j h; exact absurd h (by simp [colIdx])
  | cons a as ih =>
      intro j h
      unfold colIdx at h
      by_cases hac : a = c
      · rw [if_pos hac] at h
        cases h
        simp
      · rw [if_neg hac] at h
        cases hj : colIdx as c with
        | none => rw [hj] at h; exact absurd h (by simp)
        | some j' =>
            rw [hj] at h
            simp only [Option.map_some', Option.some.injEq] at h
            rw [← h]
            have := ih j' hj
            simp
            omega

/-- A found column index points at the name. -/
theorem colIdx_get (l : List String) (c : String) :
    ∀ j, colIdx l c = some j → l.get? j = some c := by
  induction l with
  | nil => intro j h; exact absurd h (by simp [colIdx])
  | cons a as ih =>
      intro j h
      unfold colIdx at h
      by_cases hac : a = c
      · rw [if_pos hac] at h
        cases h
        simp [hac]
      · rw [if_neg hac] at h
        cases hj : colIdx as c with
        | none => rw [hj] at h; exact absurd h (by simp)
        | some j' =>
            rw [hj] at h
            simp only [Option.map_some', Option.some.injEq] at h
            rw [← h]
            exact ih j' hj

/-- Appending a different column name does not change a lookup. -/
theorem colIdx_append_ne (l : List String) (a c : String) (h : c ≠ a) :
    colIdx (l ++ [a]) c = colIdx l c := by
  induction l with
  | nil =>
      have h' : ¬ (a = c) := fun hh => h hh.symm
      simp [colIdx, h']
  | cons b bs ih =>
      show (if b = c then some 0 else (colIdx (bs ++ [a]) c).map (· + 1)) = _
      rw [ih]
      rfl

/-- Setting an index back to the value it already holds is the identity. -/
theorem list_set_same {α : Type _} : ∀ (l : List α) (i : Nat) (b : α),
    l.get? i = some b → l.set i b = l := by
  intro l
  induction l with
  | nil => intro i b h; exact absurd h (by simp)
  | cons x xs ih =>
      intro i b h
      cases i with
      | zero =>
          simp only [List.get?] at h
          cases h
          rfl
      | succ i' =>
          simp only [List.get?] at h
          show x :: xs.set i' b = x :: xs
          rw [ih i' b h]

/-- Rows keep their length bound through a `set` of a row of the right
length. -/
theorem rect_set (cells : List (List JValue)) (i : Nat) (x : List JValue) (L : Nat)
    (hrect : ∀ j r, cells.get? j = some r → r.length = L) (hx : x.length = L) :
    ∀ j r, (cells.set i x).get? j = some r → r.length = L := by
  intro j r h
  by_cases hij : i = j
  · subst hij
    rw [List.get?_set_eq x i cells] at h
    cases hcj : cells.get? i with
    | none => rw [hcj] at h; exact absurd h (by simp)
    | some r0 =>
        rw [hcj] at h
        have h2 : some x = some r := by simpa using h
        cases h2
        exact hx
  · rw [List.get?_set_ne x cells hij] at h
    exact hrect j r h

/-- Mapping a row projection over a padded table is unchanged when the
projection looks below the padding. -/
theorem map_getD_padCol (i : Nat) (v : JValue) (jc : Nat) (d : JValue) :
    ∀ (cells : List (List JValue)) (k : Nat), (∀ r ∈ cells, jc < r.length) →
    (padCol i v k cells).map (fun r => (r.get? jc).getD d) =
      cells.map (fun r => (r.get? jc).getD d) := by
  intro cells
  induction cells with
  | nil => intro k _; rfl
  | cons row rest ih =>
      intro k hb
      show ((row ++ [if k = i then v else JValue.nan]).get? jc).getD d ::
          (padCol i v (k+1) rest).map (fun r => (r.get? jc).getD d) = _
      rw [List.get?_append (hb row (by simp))]
      rw [ih (k+1) (fun r hr => hb r (by simp [hr]))]
      rfl

/-- Invariant for C9: rows stay rectangular, and every column whose name
is not AI-prefixed holds exactly its original values. -/
def nonAIPreserved (df0 df : DF) : Prop :=
  (∀ j r, df.cells.get? j = some r → r.length = df.cols.length) ∧
  (∀ c, isAIcol c = false → dfCol df c = dfCol df0 c)

/-- A write to an AI-prefixed column (at any row) preserves
`nonAIPreserved`. -/
theorem dfSetAt_nonAIPreserved (df0 df : DF) (i : Nat) (f : String) (v : JValue)
    (h : nonAIPreserved df0 df) : nonAIPreserved df0 (dfSetAt df i ("AI_" ++ f) v) := by
  obtain ⟨hrect, hcols⟩ := h
  have haif : isAIcol ("AI_" ++ f) = true := isAIcol_AI f
  cases hci : colIdx df.cols ("AI_" ++ f) with
  | some ja =>
      rw [dfSetAt_existing df i ("AI_" ++ f) v ja hci]
      cases hg : df.cells.get? i with
      | none => exact ⟨hrect, hcols⟩
      | some row =>
          dsimp only
          constructor
          · refine rect_set df.cells i (row.set ja v) df.cols.length hrect ?_
            rw [List.length_set]
            exact hrect i row hg
          · intro c hc
            have hac : ("AI_" ++ f) ≠ c := fun hh => by rw [hh] at haif; rw [haif] at hc; cases hc
            show dfCol ⟨df.cols, df.cells.set i (row.set ja v)⟩ c = dfCol df0 c
            rw [← hcols c hc]
            unfold dfCol
            cases hjc : colIdx df.cols c with
            | none => rfl
            | some jc =>
                simp only [Option.map_some', Option.some.injEq]
                have hjj : ja ≠ jc := by
                  intro hh
                  have h1 := colIdx_get df.cols ("AI_" ++ f) ja hci
                  have h2 := colIdx_get df.cols c jc hjc
                  rw [hh] at h1
                  rw [h1] at h2
                  exact hac (by injection h2)
                show (df.cells.set i (row.set ja v)).map (fun r => (r.get? jc).getD JValue.nan) =
                  df.cells.map (fun r => (r.get? jc).getD JValue.nan)
                rw [List.map_set]
                have hcell : (((row.set ja v).get? jc).getD JValue.nan) =
                    ((row.get? jc).getD JValue.nan) := by
                  rw [List.get?_set_ne v row hjj]
                have hmem : (df.cells.map (fun r => (r.get? jc).getD JValue.nan)).get? i =
                    some ((row.get? jc).getD JValue.nan) := by
                  rw [List.get?_map, hg]
                  rfl
                calc (df.cells.map (fun r => (r.get? jc).getD JValue.nan)).set i
                      (((row.set ja v).get? jc).getD JValue.nan)
                    = (df.cells.map (fun r => (r.get? jc).getD JValue.nan)).set i
                      ((row.get? jc).getD JValue.nan) := by rw [hcell]
                  _ = df.cells.map (fun r => (r.get? jc).getD JValue.nan) :=
                      list_set_same _ i _ hmem
  | none =>
      rw [dfSetAt_new df i ("AI_" ++ f) v hci]
      constructor
      · intro j r hjr
        show r.length = (df.cols ++ [ "AI_" ++ f ]).length
        rw [padCol_get? df.cells i v 0 j] at hjr
        cases hg : df.cells.get? j with
        | none => rw [hg] at hjr; exact absurd hjr (by simp)
        | some r0 =>
            rw [hg] at hjr
            simp only [Option.map_some', Option.some.injEq] at hjr
            rw [← hjr]
            simp [hrect j r0 hg]
      · intro c hc
        have hac : c ≠ ("AI_" ++ f) := fun hh => by rw [hh, haif] at hc; cases hc
        show dfCol ⟨df.cols ++ [ "AI_" ++ f ], padCol i v 0 df.cells⟩ c = dfCol df0 c
        rw [← hcols c hc]
        unfold dfCol
        show (colIdx (df.cols ++ [ "AI_" ++ f ]) c).map _ = _
        rw [colIdx_append_ne df.cols ("AI_" ++ f) c hac]
        cases hjc : colIdx df.cols c with
        | none => rfl
        | some jc =>
            simp only [Option.map_some', Option.some.injEq]
            refine map_getD_padCol i v jc JValue.nan df.cells 0 ?_
            intro r hr
            obtain ⟨j, hj⟩ := List.get?_of_mem hr
            have h1 := hrect j r hj
            have h2 := colIdx_lt df.cols c jc hjc
            omega

/-- Counterexample to C9 as stated: an input table that already has a
column named `AI_s` does not keep its original value — a step whose
response contains field `s` overwrites the cell (`"orig"` becomes
`"pos"`). -/
theorem claim_C9_counterexample :
    process_dataframe (some "key") exOracle (⟨["AI_s"], [[ .str "orig" ]]⟩ : DF) [exStepA] true =
      .ok (.ok ⟨["AI_s"], [[ .str "pos" ]]⟩
        ⟨10, 5, estimate_cost 10 5 "gpt-4o-mini"⟩ 1) := rfl

/-- C9 as amended: for every completed run on a rectangular table, every
input column whose name does not start with `AI_` keeps its original
values in every row; only AI-prefixed column names are ever written (an
input column that itself carries the `AI_` prefix can be overwritten). -/
theorem claim_C9 (envKey : Option String) (k : String) (oracle : Oracle) (df : DF)
    (steps : List Step) (preview : Bool) (out : DF) (s : Summary) (n : Nat)
    (hk : resolveKey none envKey = some k)
    (hrect : ∀ r ∈ df.cells, r.length = df.cols.length)
    (hrun : process_dataframe envKey oracle df steps preview = .ok (.ok out s n)) :
    ∀ c, isAIcol c = false → dfCol out c = dfCol df c := by
  rw [process_dataframe_eq_fold envKey k oracle df steps preview hk] at hrun
  cases hfold : List.foldlM (runRow oracle steps) (LoopState.mk df 0 0 0)
      (List.range (if preview then 1 else df.cells.length)) with
  | error e => rw [hfold] at hrun; exact absurd hrun (by simp)
  | ok ls =>
      rw [hfold] at hrun
      have hout : out = ls.df := by
        have h5 := hrun
        simp only [Except.ok.injEq, RunResult.ok.injEq] at h5
        exact h5.1.symm
      have hinv : nonAIPreserved df ls.df := by
        refine fold_rows_df_preserve (nonAIPreserved df) oracle steps
          (List.range (if preview then 1 else df.cells.length)) ?_
          (LoopState.mk df 0 0 0) ls hfold ?_
        · intro i _ df' f v hp
          exact dfSetAt_nonAIPreserved df df' i f v hp
        · constructor
          · intro j r hjr
            exact hrect r (List.get?_mem hjr)
          · intro c _
            rfl
      rw [hout]
      exact hinv.2

/-- Witness for C9's amended statement at concrete inputs: after a
preview run that adds the `AI_s` column, the non-AI input column `c`
holds exactly its original values. -/
theorem claim_C9_witness :
    isAIcol "c" = false ∧
    dfCol (⟨["c", "AI_s"], [[ .str "r1", .str "pos" ], [ .str "r2", .nan ]]⟩ : DF) "c" =
      dfCol exDf2 "c" :=
  ⟨by decide,
    claim_C9 (some "key") "key" exOracle exDf2 [exStepA] true
      ⟨["c", "AI_s"], [[ .str "r1", .str "pos" ], [ .str "r2", .nan ]]⟩
      ⟨10, 5, estimate_cost 10 5 "gpt-4o-mini"⟩ 1 rfl (by decide) rfl "c" (by decide)⟩

/-! ## C1: placeholder substitution

The claim quantifies over templates; to reason about the scanner and the
sequential replacements, templates are presented as an alternating list
of literal segments and placeholder tokens (`TmplPart`), rendered to the
actual character string fed to `replace_placeholders`. -/

/-- Characters free of both braces. -/
def braceFree (s : List Char) : Bool := s.all (fun c => !(c == '{') && !(c == '}'))

/-- A template part: a literal segment or a placeholder with the given
name. -/
inductive TmplPart where
  | lit (s : List Char)
  | ph (name : List Char)

/-- Concrete template text of a part list. -/
def render : List TmplPart → List Char
  | [] => []
  | .lit s :: ps => s ++ render ps
  | .ph n :: ps => phToken n ++ render ps

/-- Wellformedness of one part: literal segments carry no braces, names
are nonempty word-character strings. -/
def partOk : TmplPart → Bool
  | .lit s => braceFree s
  | .ph n => !n.isEmpty && n.all isWordChar

/-- The names of the placeholders of a template, in order, duplicates
kept — what the regex scan is expected to produce. -/
def phNames : List TmplPart → List (List Char)
  | [] => []
  | .lit _ :: ps => phNames ps
  | .ph n :: ps => n :: phNames ps

/-- Pointwise substitution of a template against a row: each placeholder
becomes the string form of the row's value (empty for a missing column);
the behavior the spec describes. -/
def substParts (row : Row) : List TmplPart → List Char
  | [] => []
  | .lit s :: ps => s ++ substParts row ps
  | .ph n :: ps => valStr row n ++ substParts row ps

/-- The substituted value of a part is brace-free (trivial for literal
segments). -/
def braceFreePart (row : Row) : TmplPart → Bool
  | .lit _ => true
  | .ph n => braceFree (valStr row n)

/-- Boolean contiguous-occurrence check. -/
def occursIn (pat : List Char) : List Char → Bool
  | [] => pat.isEmpty
  | c :: rest => pat.isPrefixOf (c :: rest) || occursIn pat rest

/-- Unfolding of the scanner one step into a nonempty list. -/
theorem scanAux_succ_cons (fuel : Nat) (c : Char) (rest : List Char) :
    scanAux (fuel+1) (c :: rest) =
      if c = '{' ∧ rest.head? = some '@' then
        if rest.tail.takeWhile isWordChar ≠ [] ∧
            (rest.tail.dropWhile isWordChar).head? = some '}' then
          rest.tail.takeWhile isWordChar ::
            scanAux fuel (rest.tail.dropWhile isWordChar).tail
        else scanAux fuel rest
      else scanAux fuel rest := rfl

/-- Dropping an initial segment never lengthens a list. -/
theorem length_dropWhile_le' (p : Char → Bool) :
    ∀ l : List Char, (l.dropWhile p).length ≤ l.length := by
  intro l
  induction l with
  | nil => simp
  | cons a t ih =>
      rw [List.dropWhile_cons]
      by_cases h : p a
      · simp only [h, if_true, List.length_cons]
        omega
      · simp [h]

/-- The scanner does not depend on the fuel once the fuel dominates the
input length. -/
theorem scanAux_stable : ∀ (f g : Nat) (s : List Char),
    s.length < f → s.length < g → scanAux f s = scanAux g s := by
  intro f
  induction f with
  | zero => intro g s hf _; omega
  | succ f' ih =>
      intro g s hf hg
      cases g with
      | zero => omega
      | succ g' =>
          cases s with
          | nil => rfl
          | cons c rest =>
              rw [scanAux_succ_cons f' c rest, scanAux_succ_cons g' c rest]
              have hlen : rest.length + 1 < f' + 1 := by simpa using hf
              have hlen2 : rest.length + 1 < g' + 1 := by simpa using hg
              by_cases h1 : c = '{' ∧ rest.head? = some '@'
              · rw [if_pos h1, if_pos h1]
                by_cases h2 : rest.tail.takeWhile isWordChar ≠ [] ∧
                    (rest.tail.dropWhile isWordChar).head? = some '}'
                · rw [if_pos h2, if_pos h2]
                  congr 1
                  have e1 : (rest.tail.dropWhile isWordChar).length ≤ rest.tail.length :=
                    length_dropWhile_le' _ _
                  have e2 : rest.tail.length ≤ rest.length := by
                    cases rest <;> simp
                  have e3 : ((rest.tail.dropWhile isWordChar).tail).length ≤
                      (rest.tail.dropWhile isWordChar).length := by
                    cases rest.tail.dropWhile isWordChar <;> simp
                  exact ih g' _ (by omega) (by omega)
                · rw [if_neg h2, if_neg h2]
                  exact ih g' rest (by omega) (by omega)
              · rw [if_neg h1, if_neg h1]
                exact ih g' rest (by omega) (by omega)

/-- A character that cannot start a match is skipped. -/
theorem scan_cons_ne (c : Char) (t : List Char) (h : ¬ (c = '{' ∧ t.head? = some '@')) :
    scanPlaceholders (c :: t) = scanPlaceholders t := by
  show scanAux ((c :: t).length + 1) (c :: t) = scanPlaceholders t
  rw [show (c :: t).length + 1 = (t.length + 1) + 1 from by simp]
  rw [scanAux_succ_cons (t.length + 1) c t, if_neg h]
  rfl

/-- A brace-free prefix contributes nothing to the scan. -/
theorem scan_append_noBrace (s t : List Char) (h : ∀ c ∈ s, c ≠ '{') :
    scanPlaceholders (s ++ t) = scanPlaceholders t := by
  induction s with
  | nil => rfl
  | cons c s' ih =>
      show scanPlaceholders (c :: (s' ++ t)) = _
      rw [scan_cons_ne c (s' ++ t) (fun hc => (h c (by simp)) hc.1)]
      exact ih (fun c' hc' => h c' (by simp [hc']))

/-- Splitting a word run followed by a stopper. -/
theorem takeWhile_dropWhile_stop (p : Char → Bool) (x : Char) (hx : p x = false) :
    ∀ (n t : List Char), (∀ c ∈ n, p c = true) →
    (n ++ x :: t).takeWhile p = n ∧ (n ++ x :: t).dropWhile p = x :: t := by
  intro n
  induction n with
  | nil =>
      intro t _
      constructor
      · simp [List.takeWhile_cons, hx]
      · simp [List.dropWhile_cons, hx]
  | cons a n' ih =>
      intro t hn
      have ha : p a = true := hn a (by simp)
      obtain ⟨ih1, ih2⟩ := ih t (fun c hc => hn c (by simp [hc]))
      constructor
      · show ((a :: (n' ++ x :: t)).takeWhile p) = a :: n'
        rw [List.takeWhile_cons, ha]
        simp [ih1]
      · show ((a :: (n' ++ x :: t)).dropWhile p) = x :: t
        rw [List.dropWhile_cons]
        simp [ha, ih2]

/-- A placeholder token at the head of the input is matched, capturing
its name, and scanning resumes after the token. -/
theorem scan_token (n t : List Char) (hn : n ≠ []) (hw : ∀ c ∈ n, isWordChar c = true) :
    scanPlaceholders (phToken n ++ t) = n :: scanPlaceholders t := by
  have hsplit := takeWhile_dropWhile_stop isWordChar '}' (by decide) n t hw
  have hform : phToken n ++ t = '{' :: '@' :: (n ++ '}' :: t) := by
    unfold phToken
    simp
  rw [hform]
  show scanAux (('{' :: '@' :: (n ++ '}' :: t)).length + 1) _ = _
  have hL : ('{' :: '@' :: (n ++ '}' :: t)).length + 1 =
      (('@' :: (n ++ '}' :: t)).length + 1) + 1 := by simp
  rw [hL, scanAux_succ_cons]
  rw [if_pos ⟨rfl, rfl⟩]
  show (if ('@' :: (n ++ '}' :: t)).tail.takeWhile isWordChar ≠ [] ∧
      ((('@' :: (n ++ '}' :: t)).tail.dropWhile isWordChar).head? = some '}') then _ else _) = _
  have ht : ('@' :: (n ++ '}' :: t)).tail = n ++ '}' :: t := rfl
  rw [ht, hsplit.1, hsplit.2]
  rw [if_pos ⟨hn, rfl⟩]
  show n :: scanAux (('@' :: (n ++ '}' :: t)).length + 1) t = n :: scanPlaceholders t
  congr 1
  apply scanAux_stable
  · simp
    omega
  · simp

/-- Unpacking `braceFree`. -/
theorem braceFree_mem (s : List Char) (h : braceFree s = true) :
    ∀ c ∈ s, c ≠ '{' ∧ c ≠ '}' := by
  intro c hc
  have := List.all_eq_true.mp h c hc
  constructor
  · intro he; subst he; simp at this
  · intro he; subst he; simp at this

/-- Unpacking `partOk` of a placeholder. -/
theorem partOk_ph (n : List Char) (h : partOk (.ph n) = true) :
    n ≠ [] ∧ ∀ c ∈ n, isWordChar c = true := by
  unfold partOk at h
  simp only [Bool.and_eq_true] at h
  constructor
  · intro he; subst he; simp at h
  · exact fun c hc => List.all_eq_true.mp h.2 c hc

/-- The scan of a rendered wellformed template is exactly its placeholder
names in order. -/
theorem scan_render (parts : List TmplPart) (hok : ∀ p ∈ parts, partOk p = true) :
    scanPlaceholders (render parts) = phNames parts := by
  induction parts with
  | nil => rfl
  | cons p ps ih =>
      cases p with
      | lit s =>
          show scanPlaceholders (s ++ render ps) = phNames ps
          rw [scan_append_noBrace s (render ps)
            (fun c hc => (braceFree_mem s (hok (.lit s) (by simp)) c hc).1)]
          exact ih (fun q hq => hok q (by simp [hq]))
      | ph n =>
          obtain ⟨hn, hw⟩ := partOk_ph n (hok (.ph n) (by simp))
          show scanPlaceholders (phToken n ++ render ps) = n :: phNames ps
          rw [scan_token n (render ps) hn hw]
          rw [ih (fun q hq => hok q (by simp [hq]))]

/-- Unfolding of the replacer one step into a nonempty list. -/
theorem replaceAllAux_succ_cons (pat repl : List Char) (fuel : Nat) (c : Char)
    (rest : List Char) :
    replaceAllAux pat repl (fuel+1) (c :: rest) =
      if pat ≠ [] ∧ pat.isPrefixOf (c :: rest) then
        repl ++ replaceAllAux pat repl fuel ((c :: rest).drop pat.length)
      else
        c :: replaceAllAux pat repl fuel rest := rfl

/-- The replacer does not depend on the fuel once the fuel dominates the
input length. -/
theorem replaceAllAux_stable (pat repl : List Char) : ∀ (f g : Nat) (s : List Char),
    s.length < f → s.length < g → replaceAllAux pat repl f s = replaceAllAux pat repl g s := by
  intro f
  induction f with
  | zero => intro g s hf _; omega
  | succ f' ih =>
      intro g s hf hg
      cases g with
      | zero => omega
      | succ g' =>
          cases s with
          | nil => rfl
          | cons c rest =>
              rw [replaceAllAux_succ_cons, replaceAllAux_succ_cons]
              have hlen : rest.length + 1 < f' + 1 := by simpa using hf
              have hlen2 : rest.length + 1 < g' + 1 := by simpa using hg
              by_cases h1 : pat ≠ [] ∧ pat.isPrefixOf (c :: rest)
              · rw [if_pos h1, if_pos h1]
                congr 1
                have hpe : 1 ≤ pat.length := by
                  cases hp : pat with
                  | nil => exact absurd hp h1.1
                  | cons a as => simp
                apply ih g'
                · simp
                  omega
                · simp
                  omega
              · rw [if_neg h1, if_neg h1]
                congr 1
                exact ih g' rest (by omega) (by omega)

/-- A prefix of characters that cannot start the pattern is copied
verbatim. -/
theorem replaceAll_append_left (pat repl : List Char) (pat' : List Char)
    (hp : pat = '{' :: pat') :
    ∀ (s t : List Char), (∀ c ∈ s, c ≠ '{') →
    replaceAll pat repl (s ++ t) = s ++ replaceAll pat repl t := by
  intro s
  induction s with
  | nil => intro t _; rfl
  | cons c s' ih =>
      intro t hs
      show replaceAllAux pat repl ((c :: (s' ++ t)).length + 1) (c :: (s' ++ t)) = _
      rw [show (c :: (s' ++ t)).length + 1 = ((s' ++ t).length + 1) + 1 from by simp]
      rw [replaceAllAux_succ_cons]
      have hnp : ¬ (pat ≠ [] ∧ pat.isPrefixOf (c :: (s' ++ t))) := by
        intro hcontra
        have := hcontra.2
        rw [hp] at this
        simp only [List.isPrefixOf, Bool.and_eq_true, beq_iff_eq] at this
        exact (hs c (by simp)) this.1.symm
      rw [if_neg hnp]
      show c :: replaceAllAux pat repl ((s' ++ t).length + 1) (s' ++ t) = _
      rw [show replaceAllAux pat repl ((s' ++ t).length + 1) (s' ++ t) =
          replaceAll pat repl (s' ++ t) from rfl]
      rw [ih t (fun c' hc' => hs c' (by simp [hc']))]
      rfl

/-- A pattern occurrence at the head is replaced, and scanning resumes
after it. -/
theorem replaceAll_head_match (pat repl t : List Char) (hne : pat ≠ []) :
    replaceAll pat repl (pat ++ t) = repl ++ replaceAll pat repl t := by
  cases hp : pat with
  | nil => exact absurd hp hne
  | cons p ps =>
      show replaceAllAux (p :: ps) repl (((p :: ps) ++ t).length + 1) ((p :: ps) ++ t) = _
      rw [show (p :: ps) ++ t = p :: (ps ++ t) from rfl]
      rw [show (p :: (ps ++ t)).length + 1 = ((ps ++ t).length + 1) + 1 from by simp]
      rw [replaceAllAux_succ_cons]
      have hpre : (p :: ps).isPrefixOf (p :: (ps ++ t)) = true := by
        have h := isPrefixOf_append_self (p :: ps) t
        simp only [List.cons_append] at h
        exact h
      rw [if_pos ⟨by simp, hpre⟩]
      congr 1
      show replaceAllAux (p :: ps) repl ((ps ++ t).length + 1)
          ((p :: (ps ++ t)).drop (ps.length + 1)) = _
      rw [show (p :: (ps ++ t)).drop (ps.length + 1) = (ps ++ t).drop ps.length from rfl]
      rw [List.drop_left ps t]
      apply replaceAllAux_stable
      · simp
        omega
      · simp

/-- Two distinct word-character names followed by their closing braces
never line up as a prefix (word characters are never the closing brace). -/
theorem not_prefix_names : ∀ (n m t : List Char),
    (∀ c ∈ n, isWordChar c = true) → (∀ c ∈ m, isWordChar c = true) → n ≠ m →
    (n ++ [ '}' ]).isPrefixOf (m ++ '}' :: t) = false := by
  intro n
  induction n with
  | nil =>
      intro m t _ hm hnm
      cases m with
      | nil => exact absurd rfl hnm
      | cons b m' =>
          show ([ '}' ]).isPrefixOf (b :: (m' ++ '}' :: t)) = false
          have hb : isWordChar b = true := hm b (by simp)
          have hbne : ('}' == b) = false := by
            cases heq : ('}' == b) with
            | false => rfl
            | true =>
                have : '}' = b := by simpa using heq
                rw [← this] at hb
                simp [isWordChar] at hb
          simp [List.isPrefixOf, hbne]
  | cons a n' ih =>
      intro m t hn hm hnm
      cases m with
      | nil =>
          show ((a :: n') ++ [ '}' ]).isPrefixOf ('}' :: t) = false
          have ha : isWordChar a = true := hn a (by simp)
          have hane : (a == '}') = false := by
            cases heq : (a == '}') with
            | false => rfl
            | true =>
                have : a = '}' := by simpa using heq
                rw [this] at ha
                simp [isWordChar] at ha
          show (a :: (n' ++ [ '}' ])).isPrefixOf ('}' :: t) = false
          simp [List.isPrefixOf, hane]
      | cons b m' =>
          show (a :: (n' ++ [ '}' ])).isPrefixOf (b :: (m' ++ '}' :: t)) = false
          by_cases hab : a = b
          · subst hab
            have hih := ih m' t (fun c hc => hn c (by simp [hc]))
              (fun c hc => hm c (by simp [hc]))
              (fun hh => hnm (by rw [hh]))
            simp [List.isPrefixOf, hih]
          · have : (a == b) = false := by
              cases heq : (a == b) with
              | false => rfl
              | true => exact absurd (by simpa using heq) hab
            simp [List.isPrefixOf, this]

/-- A placeholder token of a different name is copied verbatim. -/
theorem replaceAll_token_skip (n m repl t : List Char)
    (hnw : ∀ c ∈ n, isWordChar c = true) (hmw : ∀ c ∈ m, isWordChar c = true)
    (hnm : n ≠ m) :
    replaceAll (phToken n) repl (phToken m ++ t) =
      phToken m ++ replaceAll (phToken n) repl t := by
  have hform : phToken m ++ t = '{' :: ('@' :: (m ++ '}' :: t)) := by
    unfold phToken
    simp
  rw [hform]
  show replaceAllAux (phToken n) repl (('{' :: ('@' :: (m ++ '}' :: t))).length + 1) _ = _
  rw [show ('{' :: ('@' :: (m ++ '}' :: t))).length + 1 =
      (('@' :: (m ++ '}' :: t)).length + 1) + 1 from by simp]
  rw [replaceAllAux_succ_cons (phToken n) repl (('@' :: (m ++ '}' :: t)).length + 1)
    '{' ('@' :: (m ++ '}' :: t))]
  have hnp : ¬ (phToken n ≠ [] ∧
      (phToken n).isPrefixOf ('{' :: ('@' :: (m ++ '}' :: t)))) := by
    intro hcontra
    have h2 := hcontra.2
    have hin : (n ++ [ '}' ]).isPrefixOf (m ++ '}' :: t) = false :=
      not_prefix_names n m t hnw hmw hnm
    have hpre : (phToken n).isPrefixOf ('{' :: ('@' :: (m ++ '}' :: t))) = false := by
      show ('{' :: '@' :: (n ++ [ '}' ])).isPrefixOf ('{' :: ('@' :: (m ++ '}' :: t))) = false
      simp [List.isPrefixOf, hin]
    rw [hpre] at h2
    cases h2
  rw [if_neg hnp]
  show '{' :: replaceAll (phToken n) repl ('@' :: (m ++ '}' :: t)) = _
  have hsp : ('@' :: (m ++ [ '}' ])) ++ t = '@' :: (m ++ '}' :: t) := by simp
  rw [← hsp]
  have hchars : ∀ c ∈ ('@' :: (m ++ [ '}' ])), c ≠ '{' := by
    intro c hc
    simp only [List.mem_cons, List.mem_append, List.mem_singleton] at hc
    rcases hc with h1 | h2 | h3
    · rw [h1]; decide
    · have := hmw c h2
      intro he
      rw [he] at this
      simp [isWordChar] at this
    · rcases h3 with rfl | h0
      · decide
      · cases h0
  rw [replaceAll_append_left (phToken n) repl ('@' :: (n ++ [ '}' ])) rfl
    ('@' :: (m ++ [ '}' ])) t hchars]
  show '{' :: (('@' :: (m ++ [ '}' ])) ++ replaceAll (phToken n) repl t) =
    phToken m ++ replaceAll (phToken n) repl t
  unfold phToken
  simp

/-- Effect of one global replacement on one template part: a placeholder
with the replaced name becomes the literal substituted value, everything
else is untouched. -/
def mapPhPart (row : Row) (nm : List Char) : TmplPart → TmplPart
  | .lit s => .lit s
  | .ph m => if m = nm then .lit (valStr row nm) else .ph m

/-- Effect of one global replacement on a whole template. -/
def mapPh (row : Row) (nm : List Char) (parts : List TmplPart) : List TmplPart :=
  parts.map (mapPhPart row nm)

/-- One global replacement of a placeholder token in a rendered
wellformed template substitutes exactly the placeholders of that name. -/
theorem replaceAll_render (row : Row) (nm : List Char) (parts : List TmplPart)
    (hok : ∀ p ∈ parts, partOk p = true)
    (hnm : nm ≠ [] ∧ ∀ c ∈ nm, isWordChar c = true) :
    replaceAll (phToken nm) (valStr row nm) (render parts) =
      render (mapPh row nm parts) := by
  induction parts with
  | nil => rfl
  | cons p ps ih =>
      have hok' : ∀ q ∈ ps, partOk q = true := fun q hq => hok q (by simp [hq])
      cases p with
      | lit s =>
          show replaceAll (phToken nm) (valStr row nm) (s ++ render ps) = _
          rw [replaceAll_append_left (phToken nm) (valStr row nm) ('@' :: (nm ++ [ '}' ])) rfl
            s (render ps) (fun c hc => (braceFree_mem s (hok (.lit s) (by simp)) c hc).1)]
          rw [ih hok']
          rfl
      | ph m =>
          obtain ⟨hm, hmw⟩ := partOk_ph m (hok (.ph m) (by simp))
          by_cases heq : m = nm
          · subst heq
            show replaceAll (phToken m) (valStr row m) (phToken m ++ render ps) = _
            rw [replaceAll_head_match (phToken m) (valStr row m) (render ps) (by simp [phToken])]
            rw [ih hok']
            show valStr row m ++ render (mapPh row m ps) =
              render (mapPhPart row m (.ph m) :: mapPh row m ps)
            dsimp only [mapPhPart]
            rw [if_pos rfl]
            rfl
          · show replaceAll (phToken nm) (valStr row nm) (phToken m ++ render ps) = _
            rw [replaceAll_token_skip nm m (valStr row nm) (render ps) hnm.2 hmw
              (fun hh => heq hh.symm)]
            rw [ih hok']
            show phToken m ++ render (mapPh row nm ps) =
              render (mapPhPart row nm (.ph m) :: mapPh row nm ps)
            dsimp only [mapPhPart]
            rw [if_neg heq]
            rfl

/-- Substituted values are brace-free, so `mapPh` preserves
wellformedness. -/
theorem partOk_mapPh (row : Row) (nm : List Char) (parts : List TmplPart)
    (hok : ∀ p ∈ parts, partOk p = true)
    (hv : braceFree (valStr row nm) = true) :
    ∀ p ∈ mapPh row nm parts, partOk p = true := by
  intro p hp
  unfold mapPh at hp
  obtain ⟨q, hq, hpq⟩ := List.mem_map.mp hp
  cases q with
  | lit s => rw [← hpq]; exact hok (.lit s) hq
  | ph m =>
      rw [← hpq]
      unfold mapPhPart
      by_cases heq : m = nm
      · simp only [heq, if_true]
        exact hv
      · simp only [heq, if_false]
        exact hok (.ph m) hq

/-- A fold of per-name maps acts pointwise. -/
theorem foldl_mapPh_eq_map (row : Row) :
    ∀ (names : List (List Char)) (parts : List TmplPart),
    names.foldl (fun l nm => mapPh row nm l) parts =
      parts.map (fun p => names.foldl (fun q nm => mapPhPart row nm q) p) := by
  intro names
  induction names with
  | nil => intro parts; simp
  | cons nm rest ih =>
      intro parts
      show rest.foldl (fun l nm => mapPh row nm l) (mapPh row nm parts) = _
      rw [ih (mapPh row nm parts)]
      unfold mapPh
      rw [List.map_map]
      rfl

/-- The per-part fold leaves literal segments alone. -/
theorem foldl_mapPhPart_lit (row : Row) (names : List (List Char)) (s : List Char) :
    names.foldl (fun q nm => mapPhPart row nm q) (.lit s) = .lit s := by
  induction names with
  | nil => rfl
  | cons nm rest ih =>
      show rest.foldl (fun q nm => mapPhPart row nm q) (mapPhPart row nm (.lit s)) = _
      exact ih

/-- The per-part fold substitutes a placeholder once its name appears. -/
theorem foldl_mapPhPart_ph (row : Row) :
    ∀ (names : List (List Char)) (m : List Char), m ∈ names →
    names.foldl (fun q nm => mapPhPart row nm q) (.ph m) = .lit (valStr row m) := by
  intro names
  induction names with
  | nil => intro m hm; cases hm
  | cons nm rest ih =>
      intro m hm
      show rest.foldl (fun q nm => mapPhPart row nm q) (mapPhPart row nm (.ph m)) = _
      by_cases heq : m = nm
      · subst heq
        show rest.foldl (fun q nm => mapPhPart row nm q)
            (if m = m then .lit (valStr row m) else .ph m) = _
        rw [if_pos rfl]
        exact foldl_mapPhPart_lit row rest (valStr row m)
      · show rest.foldl (fun q nm => mapPhPart row nm q)
            (if m = nm then .lit (valStr row nm) else .ph m) = _
        rw [if_neg heq]
        have hm' : m ∈ rest := by
          rcases List.mem_cons.mp hm with h1 | h2
          · exact absurd h1 heq
          · exact h2
        exact ih m hm'

/-- Rendering the template after substituting every placeholder name that
occurs gives exactly the pointwise substitution. -/
theorem render_fold_subst (row : Row) (names : List (List Char)) :
    ∀ (parts : List TmplPart), (∀ nm ∈ phNames parts, nm ∈ names) →
    render (parts.map (fun p => names.foldl (fun q nm => mapPhPart row nm q) p)) =
      substParts row parts := by
  intro parts
  induction parts with
  | nil => intro _; rfl
  | cons p ps ih =>
      intro hsub
      have hsub' : ∀ nm ∈ phNames ps, nm ∈ names := by
        intro nm hnm
        apply hsub
        cases p <;> simp [phNames, hnm]
      cases p with
      | lit s =>
          rw [List.map_cons, foldl_mapPhPart_lit row names s]
          show s ++ render (ps.map (fun p => names.foldl (fun q nm => mapPhPart row nm q) p)) =
            s ++ substParts row ps
          rw [ih hsub']
      | ph m =>
          have hm : m ∈ names := hsub m (by simp [phNames])
          rw [List.map_cons, foldl_mapPhPart_ph row names m hm]
          show valStr row m ++
              render (ps.map (fun p => names.foldl (fun q nm => mapPhPart row nm q) p)) =
            valStr row m ++ substParts row ps
          rw [ih hsub']

/-- Folding every replacement in match order over the rendered template
substitutes template parts pointwise. -/
theorem foldl_replaceAll_render (row : Row) :
    ∀ (names : List (List Char)) (parts : List TmplPart),
    (∀ p ∈ parts, partOk p = true) →
    (∀ nm ∈ names, nm ≠ [] ∧ (∀ c ∈ nm, isWordChar c = true) ∧
      braceFree (valStr row nm) = true) →
    names.foldl (fun acc nm => replaceAll (phToken nm) (valStr row nm) acc) (render parts) =
      render (names.foldl (fun l nm => mapPh row nm l) parts) := by
  intro names
  induction names with
  | nil => intro parts _ _; rfl
  | cons nm rest ih =>
      intro parts hok hnames
      obtain ⟨h1, h2, h3⟩ := hnames nm (by simp)
      show rest.foldl (fun acc nm => replaceAll (phToken nm) (valStr row nm) acc)
        (replaceAll (phToken nm) (valStr row nm) (render parts)) = _
      rw [replaceAll_render row nm parts hok ⟨h1, h2⟩]
      exact ih (mapPh row nm parts) (partOk_mapPh row nm parts hok h3)
        (fun x hx => hnames x (by simp [hx]))

/-- Every scanned name is the name of a placeholder part. -/
theorem ph_mem_of_phNames : ∀ (parts : List TmplPart) (nm : List Char),
    nm ∈ phNames parts → TmplPart.ph nm ∈ parts := by
  intro parts
  induction parts with
  | nil => intro nm h; cases h
  | cons p ps ih =>
      intro nm h
      cases p with
      | lit s => exact List.mem_cons_of_mem _ (ih nm h)
      | ph n =>
          rcases List.mem_cons.mp h with h1 | h2
          · rw [h1]; exact List.mem_cons_self _ _
          · exact List.mem_cons_of_mem _ (ih nm h2)

/-- The pointwise substitution of a wellformed template against
brace-free values contains no opening brace at all. -/
theorem substParts_noBrace (row : Row) (parts : List TmplPart)
    (hok : ∀ p ∈ parts, partOk p = true)
    (hv : ∀ p ∈ parts, braceFreePart row p = true) :
    ∀ c ∈ substParts row parts, c ≠ '{' := by
  induction parts with
  | nil => intro c hc; cases hc
  | cons p ps ih =>
      have ih' := ih (fun q hq => hok q (by simp [hq])) (fun q hq => hv q (by simp [hq]))
      intro c hc
      cases p with
      | lit s =>
          rcases List.mem_append.mp hc with h1 | h2
          · exact (braceFree_mem s (hok (.lit s) (by simp)) c h1).1
          · exact ih' c h2
      | ph n =>
          rcases List.mem_append.mp hc with h1 | h2
          · exact (braceFree_mem (valStr row n) (hv (.ph n) (by simp)) c h1).1
          · exact ih' c h2

/-- A pattern containing a character the text lacks is never a prefix. -/
theorem isPrefixOf_false_of_missing (x : Char) :
    ∀ (p s : List Char), x ∈ p → x ∉ s → p.isPrefixOf s = false := by
  intro p
  induction p with
  | nil => intro s hx _; cases hx
  | cons y p' ih =>
      intro s hx hs
      cases s with
      | nil => rfl
      | cons a as =>
          rcases List.mem_cons.mp hx with h1 | h2
          · have hya : (y == a) = false := by
              cases heq : (y == a) with
              | false => rfl
              | true =>
                  have hya' : y = a := by simpa using heq
                  have hxa : x = a := h1.trans hya'
                  exact absurd (by rw [hxa]; exact List.mem_cons_self a as) hs
            simp [List.isPrefixOf, hya]
          · have : p'.isPrefixOf as = false :=
              ih as h2 (fun hmem => hs (List.mem_cons_of_mem a hmem))
            simp [List.isPrefixOf, this]

/-- A pattern containing a character the text lacks never occurs in it. -/
theorem occursIn_false_of_missing (p : List Char) (x : Char) (hx : x ∈ p) :
    ∀ s, x ∉ s → occursIn p s = false := by
  intro s
  induction s with
  | nil =>
      intro _
      cases p with
      | nil => cases hx
      | cons y p' => rfl
  | cons c rest ih =>
      intro hs
      show (p.isPrefixOf (c :: rest) || occursIn p rest) = false
      rw [isPrefixOf_false_of_missing x p (c :: rest) hx hs]
      rw [ih (fun hmem => hs (List.mem_cons_of_mem c hmem))]
      rfl

/-- Counterexample to C1 as stated. First conjunct: the value inserted
for `{@a}` is itself the placeholder text `{@b}`, and the later
replacement pass expands it, producing `v v` instead of the literal
`{@b} v` — substitution is not single-pass literal replacement. Second
and third conjuncts: on the template with overlapping brace text, the
result still contains the placeholder `{@b}` even though `b` is a column
of the row. -/
theorem claim_C1_counterexample :
    replace_placeholders "{@a} {@b}" [("a", .str "{@b}"), ("b", .str "v")] = "v v" ∧
    replace_placeholders "{@{@a}}" [("a", .str "b"), ("b", .str "c")] = "{@b}" ∧
    occursIn (phToken "b".data) "{@b}".data = true :=
  ⟨rfl, rfl, rfl⟩

/-- C1 as amended: `replace_placeholders` replaces the placeholders found
in the original template in match order by sequential global text
replacement, so an inserted value can be expanded by a later replacement
and the result can contain `{@X}` for a column X of the row; but for
every template whose literal segments are brace-free and whose
placeholder names are nonempty word strings, and every row whose
substituted string values are brace-free, the result is exactly the
pointwise substitution — each `{@X}` with X a key of the row replaced by
`str(row[X])`, each `{@X}` with X absent replaced by the empty string,
nothing expanded twice — and the result contains no occurrence of `{@X}`
for any column name X present in the row. -/
theorem claim_C1 (parts : List TmplPart) (row : Row)
    (hok : ∀ p ∈ parts, partOk p = true)
    (hv : ∀ p ∈ parts, braceFreePart row p = true) :
    replace_placeholders (String.mk (render parts)) row =
      String.mk (substParts row parts) ∧
    ∀ (X : String) (v : JValue), (X, v) ∈ row →
      occursIn (phToken X.data) (substParts row parts) = false := by
  constructor
  · show String.mk ((scanPlaceholders (render parts)).foldl
      (fun acc name => replaceAll (phToken name) (valStr row name) acc)
      (render parts)) = _
    apply congrArg String.mk
    rw [scan_render parts hok]
    have hnames : ∀ nm ∈ phNames parts, nm ≠ [] ∧ (∀ c ∈ nm, isWordChar c = true) ∧
        braceFree (valStr row nm) = true := by
      intro nm hnm
      have hmem := ph_mem_of_phNames parts nm hnm
      obtain ⟨h1, h2⟩ := partOk_ph nm (hok (.ph nm) hmem)
      exact ⟨h1, h2, hv (.ph nm) hmem⟩
    rw [foldl_replaceAll_render row (phNames parts) parts hok hnames]
    rw [foldl_mapPh_eq_map row (phNames parts) parts]
    exact render_fold_subst row (phNames parts) parts (fun nm h => h)
  · intro X v hXv
    refine occursIn_false_of_missing (phToken X.data) '{' (by simp [phToken])
      (substParts row parts) ?_
    intro hmem
    exact (substParts_noBrace row parts hok hv '{' hmem) rfl

/-- Template parts of the C1 witness. -/
def exParts : List TmplPart :=
  [.lit "Analyze: ".data, .ph "Review".data, .lit " end".data]

/-- Row of the C1 witness. -/
def exRowC1 : Row := [("Review", .str "great")]

/-- Witness for C1's amended statement at concrete inputs. -/
theorem claim_C1_witness :
    (∀ p ∈ exParts, partOk p = true) ∧
    (∀ p ∈ exParts, braceFreePart exRowC1 p = true) ∧
    (replace_placeholders (String.mk (render exParts)) exRowC1 =
        String.mk (substParts exRowC1 exParts) ∧
      ∀ (X : String) (v : JValue), (X, v) ∈ exRowC1 →
        occursIn (phToken X.data) (substParts exRowC1 exParts) = false) :=
  ⟨by decide, by decide, claim_C1 exParts exRowC1 (by decide) (by decide)⟩
